import Mathlib

/-!
Verification development for the settlement engine of a shared-expense bot
(`bot/services/calculation_service.py`).

Shallow embedding conventions:
* Python `Decimal` values are modelled as exact rationals (`ℚ`); all the
  arithmetic the engine performs on them (addition, subtraction,
  multiplication, division by small integers, `round(x, 2)`) is exact
  decimal arithmetic well within `Decimal`'s 28-digit context, except that
  `Decimal` division truncates non-terminating quotients at 28 significant
  digits while `ℚ` division is exact.
* `round(x, 2)` on a `Decimal` quantizes with ROUND_HALF_EVEN; it is
  modelled by `round2` below, built on an explicit half-even rounding of
  `100 * x` to an integer.
* Python dictionaries keyed by participant id are modelled as association
  lists (`List (Int × ℚ)`) so that insertion order — which feeds the
  stable sort in the minimizer — is preserved.  `defaultdict(Decimal 0)`
  updates are `addBal`; reads are `getBal` with default `0`.
* Fallible code paths (`KeyError` on a missing family, `TypeError` when a
  `None` share reaches arithmetic, `ZeroDivisionError` for an equal split
  with no entries) are modelled by `Option`: `none` means the Python code
  raises.
* Python truthiness tests on nullable integer ids (`if split.participant_id:`)
  treat both `None` and `0` as false; `tid` reproduces this.
-/

namespace SplitwiseBot

/-- Truthiness of a nullable integer id: Python `if x:` is false for both
`None` and `0`.  Returns the id exactly when it is truthy. -/
def tid : Option Int → Option Int
  | some n => if n = 0 then none else some n
  | none => none

/-- Family row: only the fields the calculation service reads
(`family_head_id`, `members`; `len(family.members)` is the member count). -/
structure Family where
  family_head_id : Option Int
  members : List Int
  deriving Repr

/-- ExpenseSplit row: targets either a participant or a family (nullable
foreign keys), and optionally carries an explicit share amount and/or a
share percentage. -/
structure ExpenseSplit where
  participant_id : Option Int
  family_id : Option Int
  share_amount : Option ℚ
  share_percentage : Option ℚ
  deriving Repr

/-- Expense row: the fields `_calculate_balances` reads. -/
structure Expense where
  payer_id : Int
  amount : ℚ
  split_type : String
  splits : List ExpenseSplit
  deriving Repr

/-- Balance map: association list participant id → signed balance,
insertion-ordered like the Python `defaultdict`. -/
abbrev Balances := List (Int × ℚ)

/-- Add `delta` to `pid`'s balance (`balances[pid] += delta` on a
`defaultdict` starting at 0): update in place if present, else append. -/
def addBal : Balances → Int → ℚ → Balances
  | [], pid, delta => [(pid, delta)]
  | (k, v) :: rest, pid, delta =>
      if k = pid then (k, v + delta) :: rest else (k, v) :: addBal rest pid delta

/-- Read a balance, defaulting to 0 for an absent key. -/
def getBal : Balances → Int → ℚ
  | [], _ => 0
  | (k, v) :: rest, pid => if k = pid then v else getBal rest pid

/-- Family-head redirection applied to both payer credits and participant
debits: `if pid in family_map: _, head = family_map[pid]; if head: pid = head`. -/
def redirect (fm : Int → Option (Int × Option Int)) (pid : Int) : Int :=
  match fm pid with
  | some (_, family_head_id) =>
      match tid family_head_id with
      | some h => h
      | none => pid
  | none => pid

/-- Credit step of `_calculate_balances` (lines 197–207): the full expense
amount is added to the payer's balance, redirected to the family head when
the payer is in a family whose head is set. -/
def creditPayer (fm : Int → Option (Int × Option Int)) (b : Balances)
    (e : Expense) : Balances :=
  addBal b (redirect fm e.payer_id) e.amount

/-- One `equal`-policy split entry (lines 214–235): a participant target is
debited the base share (redirected to its family head); a family target is
debited base share × member count from the family's head, and silently
skipped when the head is unset.  A missing family row is a `KeyError`. -/
def processSplitEqual (families : Int → Option Family)
    (fm : Int → Option (Int × Option Int)) (share : ℚ)
    (b : Balances) (s : ExpenseSplit) : Option Balances :=
  match tid s.participant_id with
  | some pid => some (addBal b (redirect fm pid) (-share))
  | none =>
    match tid s.family_id with
    | some fid =>
      match families fid with
      | some family =>
        match tid family.family_head_id with
        | some h => some (addBal b h (-(share * (family.members.length : ℚ))))
        | none => some b
      | none => none
    | none => some b

/-- Amount carried by a `custom` split entry:
`split.share_amount or (expense.amount * split.share_percentage / 100)`.
Python `or` falls through on a `None` **or zero** share amount; a `None`
percentage reached by the fallback is a `TypeError` (`none`). -/
def resolveCustomAmount (expenseAmount : ℚ) (s : ExpenseSplit) : Option ℚ :=
  match s.share_amount with
  | some a =>
      if a = 0 then s.share_percentage.map (fun p => expenseAmount * p / 100)
      else some a
  | none => s.share_percentage.map (fun p => expenseAmount * p / 100)

/-- One `custom`-policy split entry (lines 239–257): the resolved amount is
debited from the participant (family-head redirected) or from the family's
head with no member-count multiplication; a headless family target is
skipped after the amount is resolved. -/
def processSplitCustom (families : Int → Option Family)
    (fm : Int → Option (Int × Option Int)) (expenseAmount : ℚ)
    (b : Balances) (s : ExpenseSplit) : Option Balances :=
  match resolveCustomAmount expenseAmount s with
  | none => none
  | some amount =>
    match tid s.participant_id with
    | some pid => some (addBal b (redirect fm pid) (-amount))
    | none =>
      match tid s.family_id with
      | some fid =>
        match families fid with
        | some family =>
          match tid family.family_head_id with
          | some h => some (addBal b h (-amount))
          | none => some b
        | none => none
      | none => some b

/-- One `specific`-policy split entry (lines 261–277): identical to `custom`
but the amount is `split.share_amount` with no percentage fallback; the
subtraction (and hence the `TypeError` on a `None` amount) only happens on
a branch that actually debits. -/
def processSplitSpecific (families : Int → Option Family)
    (fm : Int → Option (Int × Option Int))
    (b : Balances) (s : ExpenseSplit) : Option Balances :=
  match tid s.participant_id with
  | some pid =>
    match s.share_amount with
    | some a => some (addBal b (redirect fm pid) (-a))
    | none => none
  | none =>
    match tid s.family_id with
    | some fid =>
      match families fid with
      | some family =>
        match tid family.family_head_id with
        | some h =>
          match s.share_amount with
          | some a => some (addBal b h (-a))
          | none => none
        | none => some b
      | none => none
    | none => some b

/-- One expense of the loop in `_calculate_balances` (lines 197–277): credit
the payer, then fold the policy-dependent split debits.  An `equal` expense
with no splits is a `ZeroDivisionError`; an unknown split type debits
nothing. -/
def processExpense (families : Int → Option Family)
    (fm : Int → Option (Int × Option Int))
    (b : Balances) (e : Expense) : Option Balances :=
  let b1 := creditPayer fm b e
  if e.split_type = "equal" then
    if e.splits.length = 0 then none
    else
      e.splits.foldlM
        (processSplitEqual families fm (e.amount / (e.splits.length : ℚ))) b1
  else if e.split_type = "custom" then
    e.splits.foldlM (processSplitCustom families fm e.amount) b1
  else if e.split_type = "specific" then
    e.splits.foldlM (processSplitSpecific families fm) b1
  else
    some b1

/-- `_calculate_balances` (lines 181–279): fold all expenses over an empty
balance map. -/
def calculateBalances (families : Int → Option Family)
    (fm : Int → Option (Int × Option Int))
    (expenses : List Expense) : Option Balances :=
  expenses.foldlM (processExpense families fm) []

/-- Round a rational to the nearest integer, ties to even — the rounding
`round(_, 2)` applies to `Decimal` values (ROUND_HALF_EVEN). -/
def roundHalfEven (x : ℚ) : Int :=
  if Int.fract x < 1/2 then ⌊x⌋
  else if 1/2 < Int.fract x then ⌊x⌋ + 1
  else if ⌊x⌋ % 2 = 0 then ⌊x⌋ else ⌊x⌋ + 1

/-- Python `round(x, 2)` on a `Decimal`: half-even quantization to two
fractional digits. -/
def round2 (x : ℚ) : ℚ :=
  (roundHalfEven (100 * x) : ℚ) / 100

/-- Insert into a list sorted descending by the second component, after any
equal keys (so the overall sort below is stable, like Python's). -/
def insertDesc (x : Int × ℚ) : List (Int × ℚ) → List (Int × ℚ)
  | [] => [x]
  | y :: ys => if y.2 < x.2 then x :: y :: ys else y :: insertDesc x ys

/-- Stable descending sort by balance magnitude —
`list.sort(key=lambda x: x[1], reverse=True)`.  A stable sort is determined
extensionally by its comparator, so insertion sort agrees with Python's. -/
def sortDesc (l : List (Int × ℚ)) : List (Int × ℚ) :=
  l.foldl (fun acc x => insertDesc x acc) []

theorem round2_bounds (y : ℚ) : y - 1/200 ≤ round2 y ∧ round2 y ≤ y + 1/200 := by
  unfold round2 roundHalfEven
  have h0 := Int.fract_nonneg (100 * y)
  have h1 := Int.fract_lt_one (100 * y)
  have hf : (⌊(100 : ℚ) * y⌋ : ℚ) = 100 * y - Int.fract (100 * y) := by
    rw [Int.fract]; ring
  split
  · rename_i h
    constructor <;> [skip; skip] <;> rw [hf] <;> nlinarith
  · split
    · rename_i h h'
      constructor <;> push_cast <;> rw [hf] <;> nlinarith
    · rename_i h h'
      have he : Int.fract (100 * y) = 1/2 := by linarith
      split
      · constructor <;> rw [hf, he] <;> nlinarith
      · constructor <;> push_cast <;> rw [hf, he] <;> nlinarith

theorem sub_round2_le (y : ℚ) : y - round2 y ≤ 1/200 :=
  by have := (round2_bounds y).1; linarith

theorem round2_sub_le (y : ℚ) : round2 y - y ≤ 1/200 :=
  by have := (round2_bounds y).2; linarith

theorem half_sub_round2_min_lt (debt credit : ℚ) :
    debt - round2 (min debt credit) < 1/100 ∨
    credit - round2 (min debt credit) < 1/100 := by
  rcases le_total debt credit with h | h
  · left
    have := sub_round2_le debt
    rw [min_eq_left h]
    linarith
  · right
    have := sub_round2_le credit
    rw [min_eq_right h]
    linarith

/-- Two-pointer matching loop of `_minimize_transactions` (lines 310–335):
match the current largest debtor with the current largest creditor, settle
`round2 (min debt credit)`, record it only above the one-cent noise floor,
reduce both sides by the settled amount, and advance a pointer when its
side's remainder drops below one cent. -/
def minimizeLoop : List (Int × ℚ) → List (Int × ℚ) → List (Int × Int × ℚ)
  | [], _ => []
  | _ :: _, [] => []
  | (d, debt) :: ds, (c, credit) :: cs =>
      (if round2 (min debt credit) > 1/100
         then [(d, c, round2 (min debt credit))] else []) ++
      (if _h1 : debt - round2 (min debt credit) < 1/100 then
        if _h2 : credit - round2 (min debt credit) < 1/100 then
          minimizeLoop ds cs
        else
          minimizeLoop ds ((c, credit - round2 (min debt credit)) :: cs)
      else
        if _h2 : credit - round2 (min debt credit) < 1/100 then
          minimizeLoop ((d, debt - round2 (min debt credit)) :: ds) cs
        else
          minimizeLoop ((d, debt - round2 (min debt credit)) :: ds)
            ((c, credit - round2 (min debt credit)) :: cs))
  termination_by ds cs => ds.length + cs.length
  decreasing_by
  · simp; omega
  · simp
  · simp
  · exact absurd (half_sub_round2_min_lt debt credit)
      (by push_neg; exact ⟨not_lt.mp _h1, not_lt.mp _h2⟩)

/-- Debtor list of `_minimize_transactions` (line 303): entries with a
negative balance, with the magnitude recorded as a positive debt. -/
def debtorsOf (balances : Balances) : List (Int × ℚ) :=
  balances.filterMap (fun x => if x.2 < 0 then some (x.1, -x.2) else none)

/-- Creditor list of `_minimize_transactions` (line 304): entries with a
positive balance. -/
def creditorsOf (balances : Balances) : List (Int × ℚ) :=
  balances.filterMap (fun x => if x.2 > 0 then some (x.1, x.2) else none)

/-- `_minimize_transactions` (lines 281–335): split the balance map into
debtors (negated negative balances) and creditors, sort each descending by
magnitude, and run the matching loop. -/
def minimizeTransactions (balances : Balances) : List (Int × Int × ℚ) :=
  minimizeLoop (sortDesc (debtorsOf balances)) (sortDesc (creditorsOf balances))

/-! Basic lemmas about the balance-map operations. -/

theorem getBal_addBal (b : Balances) (pid : Int) (delta : ℚ) (p : Int) :
    getBal (addBal b pid delta) p =
      if p = pid then getBal b p + delta else getBal b p := by
  induction b with
  | nil =>
      simp only [addBal, getBal]
      by_cases h : pid = p
      · rw [if_pos h, if_pos h.symm, zero_add]
      · rw [if_neg h, if_neg (fun h' => h h'.symm)]
  | cons kv rest ih =>
      obtain ⟨k, v⟩ := kv
      simp only [addBal]
      by_cases hk : k = pid
      · rw [if_pos hk]
        by_cases hp : k = p
        · have hpp : p = pid := hp.symm.trans hk
          simp only [getBal, if_pos hp, if_pos hpp]
        · have hpp : ¬ p = pid := fun h => hp (hk.trans h.symm)
          simp only [getBal, if_pos hk, if_neg hp, if_neg hpp]
      · rw [if_neg hk]
        by_cases hp : k = p
        · have hpp : ¬ p = pid := fun h => hk (hp.trans h)
          simp only [getBal, if_pos hp, if_neg hpp]
        · simp only [getBal, if_neg hp, ih]

/-- Sum of all balances in the map. -/
def sumVals (l : List (Int × ℚ)) : ℚ :=
  (l.map Prod.snd).sum

theorem sumVals_addBal (b : Balances) (pid : Int) (delta : ℚ) :
    sumVals (addBal b pid delta) = sumVals b + delta := by
  induction b with
  | nil => simp [addBal, sumVals]
  | cons kv rest ih =>
      obtain ⟨k, v⟩ := kv
      by_cases hk : k = pid <;> simp [addBal, hk, sumVals] at ih ⊢ <;> ring_nf
      · rw [ih]; ring

theorem sumVals_cons (x : Int × ℚ) (l : List (Int × ℚ)) :
    sumVals (x :: l) = x.2 + sumVals l := by
  simp [sumVals]

/-! Branch-step lemmas for the matching loop.  `emitStep` is the
(possibly empty) singleton that the loop records for one matching step. -/

/-- Record the matched amount only above the one-cent noise floor. -/
def emitStep (d c : Int) (debt credit : ℚ) : List (Int × Int × ℚ) :=
  if round2 (min debt credit) > 1/100 then [(d, c, round2 (min debt credit))] else []

theorem minimizeLoop_nil_left (cs : List (Int × ℚ)) : minimizeLoop [] cs = [] := by
  rw [minimizeLoop.eq_def]

theorem minimizeLoop_nil_right (x : Int × ℚ) (xs : List (Int × ℚ)) :
    minimizeLoop (x :: xs) [] = [] := by
  rw [minimizeLoop.eq_def]

theorem minimizeLoop_cons_both (d : Int) (debt : ℚ) (ds : List (Int × ℚ))
    (c : Int) (credit : ℚ) (cs : List (Int × ℚ))
    (h1 : debt - round2 (min debt credit) < 1/100)
    (h2 : credit - round2 (min debt credit) < 1/100) :
    minimizeLoop ((d, debt) :: ds) ((c, credit) :: cs) =
      emitStep d c debt credit ++ minimizeLoop ds cs := by
  rw [minimizeLoop.eq_def]
  simp only [emitStep, dif_pos h1, dif_pos h2]

theorem minimizeLoop_cons_iadv (d : Int) (debt : ℚ) (ds : List (Int × ℚ))
    (c : Int) (credit : ℚ) (cs : List (Int × ℚ))
    (h1 : debt - round2 (min debt credit) < 1/100)
    (h2 : ¬ credit - round2 (min debt credit) < 1/100) :
    minimizeLoop ((d, debt) :: ds) ((c, credit) :: cs) =
      emitStep d c debt credit ++
        minimizeLoop ds ((c, credit - round2 (min debt credit)) :: cs) := by
  rw [minimizeLoop.eq_def]
  simp only [emitStep, dif_pos h1, dif_neg h2]

theorem minimizeLoop_cons_jadv (d : Int) (debt : ℚ) (ds : List (Int × ℚ))
    (c : Int) (credit : ℚ) (cs : List (Int × ℚ))
    (h1 : ¬ debt - round2 (min debt credit) < 1/100) :
    minimizeLoop ((d, debt) :: ds) ((c, credit) :: cs) =
      emitStep d c debt credit ++
        minimizeLoop ((d, debt - round2 (min debt credit)) :: ds) cs := by
  have h2 : credit - round2 (min debt credit) < 1/100 :=
    (half_sub_round2_min_lt debt credit).resolve_left h1
  rw [minimizeLoop.eq_def]
  simp only [emitStep, dif_neg h1, dif_pos h2]

/-! Claim theorems. -/

/-- C8: for an empty expense list the balance computation returns the empty
(hence all-zero) balance map without error, and the minimizer applied to
that result returns an empty settlement list. -/
theorem C8_empty_snapshot (families : Int → Option Family)
    (fm : Int → Option (Int × Option Int)) :
    calculateBalances families fm [] = some [] ∧
    (∀ p : Int, getBal [] p = 0) ∧
    minimizeTransactions [] = [] := by
  refine ⟨rfl, fun _ => rfl, ?_⟩
  simp only [minimizeTransactions, debtorsOf, creditorsOf, List.filterMap_nil]
  exact minimizeLoop_nil_left _

/-- C2: the payer-credit phase of `_calculate_balances` (which
`processExpense` runs before any debit) adds the full expense amount to
exactly one balance — the payer's family head when the payer belongs to a
family whose head is set, otherwise the payer — and leaves every other
participant's balance unchanged. -/
theorem C2_payer_credited_once (fm : Int → Option (Int × Option Int))
    (b : Balances) (e : Expense) :
    getBal (creditPayer fm b e) (redirect fm e.payer_id)
      = getBal b (redirect fm e.payer_id) + e.amount ∧
    (∀ q, q ≠ redirect fm e.payer_id → getBal (creditPayer fm b e) q = getBal b q) ∧
    (∀ f h, fm e.payer_id = some (f, some h) → h ≠ 0 → redirect fm e.payer_id = h) ∧
    (∀ f, fm e.payer_id = some (f, none) → redirect fm e.payer_id = e.payer_id) ∧
    (fm e.payer_id = none → redirect fm e.payer_id = e.payer_id) := by
  refine ⟨?_, ?_, ?_, ?_, ?_⟩
  · rw [creditPayer, getBal_addBal, if_pos rfl]
  · intro q hq; rw [creditPayer, getBal_addBal, if_neg hq]
  · intro f h hf hne; rw [redirect, hf]; simp [tid, hne]
  · intro f hf; rw [redirect, hf]; simp [tid]
  · intro hf; rw [redirect, hf]

/-- Witness for C2 at a concrete snapshot: payer 1 is in family 7 headed by
3, so the credit of 100 lands on 3 and participant 5 is untouched. -/
theorem C2_payer_credited_once_witness :
    getBal (creditPayer (fun _ => some (7, some 3)) [] ⟨1, 100, "equal", []⟩) 3
      = getBal [] 3 + 100 ∧
    getBal (creditPayer (fun _ => some (7, some 3)) [] ⟨1, 100, "equal", []⟩) 5
      = getBal [] 5 ∧
    redirect (fun _ => some (7, some 3)) 1 = 3 := by
  have h := C2_payer_credited_once (fun _ => some ((7 : Int), some (3 : Int))) []
    ⟨1, 100, "equal", []⟩
  exact ⟨h.1, h.2.1 5 (by decide), h.2.2.1 7 3 rfl (by decide)⟩

/-- C1: under the `equal` policy the base share is the expense amount
divided by the number of split entries; each participant-targeted entry is
debited one base share (redirected to the participant's family head when
applicable), and each family-targeted entry is debited base share × member
count from that family's head.  In particular, for one expense of amount A
with two entries — a lone participant (id 2) and a family of n members
headed by 3 — participant 2 is debited A/2 and head 3 is debited (A/2)·n;
at A = 100, n = 3 this is the documented 50.00 / 150.00 outcome. -/
theorem C1_equal_split_entry_shares :
    (∀ (families : Int → Option Family) (fm : Int → Option (Int × Option Int))
       (share : ℚ) (b : Balances) (s : ExpenseSplit) (pid : Int),
       tid s.participant_id = some pid →
       processSplitEqual families fm share b s
         = some (addBal b (redirect fm pid) (-share))) ∧
    (∀ (families : Int → Option Family) (fm : Int → Option (Int × Option Int))
       (share : ℚ) (b : Balances) (s : ExpenseSplit) (fid : Int) (fam : Family) (h : Int),
       tid s.participant_id = none → tid s.family_id = some fid →
       families fid = some fam → tid fam.family_head_id = some h →
       processSplitEqual families fm share b s
         = some (addBal b h (-(share * (fam.members.length : ℚ))))) ∧
    (∀ (e : Expense) (families : Int → Option Family)
       (fm : Int → Option (Int × Option Int)) (b : Balances),
       e.split_type = "equal" → e.splits.length ≠ 0 →
       processExpense families fm b e =
         e.splits.foldlM
           (processSplitEqual families fm (e.amount / (e.splits.length : ℚ)))
           (creditPayer fm b e)) ∧
    (∀ (A : ℚ) (n : ℕ),
       calculateBalances
         (fun fid => if fid = 7 then
            some ⟨some 3, List.replicate n (4 : Int)⟩ else none)
         (fun pid => if 3 ≤ pid ∧ pid < 3 + (n : Int) then some (7, some 3) else none)
         [⟨1, A, "equal", [⟨some 2, none, none, none⟩, ⟨none, some 7, none, none⟩]⟩]
         = some [(1, A), (2, -(A / 2)), (3, -(A / 2 * (n : ℚ)))]) := by
  refine ⟨?_, ?_, ?_, ?_⟩
  · intro families fm share b s pid hp
    rw [processSplitEqual, hp]
  · intro families fm share b s fid fam h hp hf hfam hh
    simp only [processSplitEqual, hp, hf, hfam, hh]
  · intro e families fm b ht hn
    rw [processExpense, if_pos ht, if_neg hn]
  · intro A n
    simp [calculateBalances, processExpense, creditPayer, redirect, tid,
          processSplitEqual, addBal]

/-- Witness for C1: a lone-participant entry debited the base share, and the
spec's exact scenario A = 100, n = 3 ⇒ participant 2 debited 50.00, head 3
debited 150.00 (payer 1 credited 100). -/
theorem C1_equal_split_entry_shares_witness :
    processSplitEqual (fun _ => none) (fun _ => none) 50 [] ⟨some 2, none, none, none⟩
      = some [(2, -50)] ∧
    calculateBalances
      (fun fid => if fid = 7 then some ⟨some 3, List.replicate 3 (4 : Int)⟩ else none)
      (fun pid => if 3 ≤ pid ∧ pid < 3 + ((3 : ℕ) : Int) then some (7, some 3) else none)
      [⟨1, 100, "equal", [⟨some 2, none, none, none⟩, ⟨none, some 7, none, none⟩]⟩]
      = some [(1, 100), (2, -50), (3, -150)] := by
  have h := C1_equal_split_entry_shares
  constructor
  · have h1 := h.1 (fun _ => none) (fun _ => none) 50 [] ⟨some 2, none, none, none⟩ 2
      (by decide)
    simpa [redirect, addBal] using h1
  · have h4 := h.2.2.2 100 3
    norm_num at h4 ⊢
    exact h4

/-- C3 counterexample: the code resolves a `custom` split amount with Python
`or`, so an explicit share amount of 0 is ignored and the percentage form is
used instead — here a split carrying share_amount 0 and share_percentage 50
on an expense of 100 debits participant 2 by 50, not by the given 0. -/
theorem C3_counterexample :
    calculateBalances (fun _ => none) (fun _ => none)
      [⟨1, 100, "custom", [⟨some 2, none, some 0, some 50⟩]⟩]
      = some [(1, 100), (2, -50)] ∧
    ((-50 : ℚ) ≠ -(0 : ℚ)) := by
  constructor
  · simp [calculateBalances, processExpense, creditPayer, redirect, tid,
          processSplitCustom, resolveCustomAmount, addBal]
  · norm_num

/-- C3 (amended): each `custom` split entry debits its target by the explicit
share amount when a **nonzero** one is given; a missing or zero share amount
falls back to expense.amount × share_percentage / 100.  The debit goes to
the targeted participant (redirected to their family head) or to the
targeted family's head with no member-count multiplication, and `custom`
expenses fold exactly these per-entry debits after the payer credit. -/
theorem C3_custom_split_shares :
    (∀ (ea : ℚ) (s : ExpenseSplit) (a : ℚ), s.share_amount = some a → a ≠ 0 →
        resolveCustomAmount ea s = some a) ∧
    (∀ (ea : ℚ) (s : ExpenseSplit) (p : ℚ),
        (s.share_amount = none ∨ s.share_amount = some 0) →
        s.share_percentage = some p →
        resolveCustomAmount ea s = some (ea * p / 100)) ∧
    (∀ (families : Int → Option Family) (fm : Int → Option (Int × Option Int))
       (ea : ℚ) (b : Balances) (s : ExpenseSplit) (amount : ℚ) (pid : Int),
        resolveCustomAmount ea s = some amount →
        tid s.participant_id = some pid →
        processSplitCustom families fm ea b s
          = some (addBal b (redirect fm pid) (-amount))) ∧
    (∀ (families : Int → Option Family) (fm : Int → Option (Int × Option Int))
       (ea : ℚ) (b : Balances) (s : ExpenseSplit) (amount : ℚ) (fid : Int)
       (fam : Family) (h : Int),
        resolveCustomAmount ea s = some amount →
        tid s.participant_id = none → tid s.family_id = some fid →
        families fid = some fam → tid fam.family_head_id = some h →
        processSplitCustom families fm ea b s = some (addBal b h (-amount))) ∧
    (∀ (e : Expense) (families : Int → Option Family)
       (fm : Int → Option (Int × Option Int)) (b : Balances),
        e.split_type = "custom" →
        processExpense families fm b e =
          e.splits.foldlM (processSplitCustom families fm e.amount)
            (creditPayer fm b e)) := by
  refine ⟨?_, ?_, ?_, ?_, ?_⟩
  · intro ea s a ha hne
    simp only [resolveCustomAmount, ha, if_neg hne]
  · rintro ea s p (ha | ha) hp <;> simp only [resolveCustomAmount, ha, hp] <;> simp
  · intro families fm ea b s amount pid hr hp
    simp only [processSplitCustom, hr, hp]
  · intro families fm ea b s amount fid fam h hr hp hf hfam hh
    simp only [processSplitCustom, hr, hp, hf, hfam, hh]
  · intro e families fm b ht
    rw [processExpense, if_neg (by rw [ht]; decide), if_pos ht]

/-- Witness for C3 (amended): a nonzero explicit share amount of 30 is used
as-is; an absent share amount on a 50% split resolves to 100 × 50 / 100; the
explicit-amount entry debits its lone participant by 30. -/
theorem C3_custom_split_shares_witness :
    resolveCustomAmount 100 ⟨some 2, none, some 30, none⟩ = some 30 ∧
    resolveCustomAmount 100 ⟨some 2, none, none, some 50⟩ = some (100 * 50 / 100) ∧
    processSplitCustom (fun _ => none) (fun _ => none) 100 [] ⟨some 2, none, some 30, none⟩
      = some [(2, -30)] := by
  have h := C3_custom_split_shares
  refine ⟨h.1 100 ⟨some 2, none, some 30, none⟩ 30 rfl (by norm_num), ?_, ?_⟩
  · exact h.2.1 100 ⟨some 2, none, none, some 50⟩ 50 (Or.inl rfl) rfl
  · have h3 := h.2.2.1 (fun _ => none) (fun _ => none) 100 [] ⟨some 2, none, some 30, none⟩
      30 2 (h.1 100 ⟨some 2, none, some 30, none⟩ 30 rfl (by norm_num)) (by decide)
    simpa [redirect, addBal] using h3

/-- C10 counterexample: under the `equal` policy a headless-family entry is
not debited, but it still counts in the divisor, so the balance map is not
what it would be with the entry absent — with the entry, participant 2 is
debited 100/2 = 50; with it absent, 100/1 = 100. -/
theorem C10_counterexample :
    calculateBalances (fun fid => if fid = 7 then some ⟨none, [4, 5]⟩ else none)
      (fun _ => none)
      [⟨1, 100, "equal", [⟨some 2, none, none, none⟩, ⟨none, some 7, none, none⟩]⟩]
      = some [(1, 100), (2, -50)] ∧
    calculateBalances (fun fid => if fid = 7 then some ⟨none, [4, 5]⟩ else none)
      (fun _ => none)
      [⟨1, 100, "equal", [⟨some 2, none, none, none⟩]⟩]
      = some [(1, 100), (2, -100)] ∧
    (some [((1 : Int), (100 : ℚ)), (2, -50)] ≠ some [((1 : Int), (100 : ℚ)), (2, -100)]) := by
  refine ⟨?_, ?_, by norm_num⟩
  · simp [calculateBalances, processExpense, creditPayer, redirect, tid,
          processSplitEqual, addBal]
    norm_num
  · simp [calculateBalances, processExpense, creditPayer, redirect, tid,
          processSplitEqual, addBal]

/-- C10 (amended): under every split policy a split entry targeting a family
whose head is unset produces no debit and no error, and the payer credit is
untouched; for `custom` and `specific` the resulting balance map is
identical to the map with that entry absent, while for `equal` the entry
still counts in the share divisor (see the counterexample), so only the
per-entry no-op holds there. -/
theorem C10_headless_family_split_skipped :
    (∀ (families : Int → Option Family) (fm : Int → Option (Int × Option Int))
       (share : ℚ) (b : Balances) (s : ExpenseSplit) (fid : Int) (fam : Family),
        tid s.participant_id = none → tid s.family_id = some fid →
        families fid = some fam → tid fam.family_head_id = none →
        processSplitEqual families fm share b s = some b) ∧
    (∀ (families : Int → Option Family) (fm : Int → Option (Int × Option Int))
       (ea : ℚ) (b : Balances) (s : ExpenseSplit) (amount : ℚ) (fid : Int) (fam : Family),
        resolveCustomAmount ea s = some amount →
        tid s.participant_id = none → tid s.family_id = some fid →
        families fid = some fam → tid fam.family_head_id = none →
        processSplitCustom families fm ea b s = some b) ∧
    (∀ (families : Int → Option Family) (fm : Int → Option (Int × Option Int))
       (b : Balances) (s : ExpenseSplit) (fid : Int) (fam : Family),
        tid s.participant_id = none → tid s.family_id = some fid →
        families fid = some fam → tid fam.family_head_id = none →
        processSplitSpecific families fm b s = some b) ∧
    (∀ (e : Expense) (families : Int → Option Family)
       (fm : Int → Option (Int × Option Int)) (b : Balances)
       (l1 l2 : List ExpenseSplit) (s : ExpenseSplit) (fid : Int) (fam : Family),
        (e.split_type = "custom" ∧ (∃ amount, resolveCustomAmount e.amount s = some amount)
           ∨ e.split_type = "specific") →
        e.splits = l1 ++ s :: l2 →
        tid s.participant_id = none → tid s.family_id = some fid →
        families fid = some fam → tid fam.family_head_id = none →
        processExpense families fm b e
          = processExpense families fm b ⟨e.payer_id, e.amount, e.split_type, l1 ++ l2⟩) := by
  have hEq : ∀ (families : Int → Option Family) (fm : Int → Option (Int × Option Int))
      (share : ℚ) (b : Balances) (s : ExpenseSplit) (fid : Int) (fam : Family),
      tid s.participant_id = none → tid s.family_id = some fid →
      families fid = some fam → tid fam.family_head_id = none →
      processSplitEqual families fm share b s = some b := by
    intro families fm share b s fid fam hp hf hfam hh
    simp only [processSplitEqual, hp, hf, hfam, hh]
  have hCu : ∀ (families : Int → Option Family) (fm : Int → Option (Int × Option Int))
      (ea : ℚ) (b : Balances) (s : ExpenseSplit) (amount : ℚ) (fid : Int) (fam : Family),
      resolveCustomAmount ea s = some amount →
      tid s.participant_id = none → tid s.family_id = some fid →
      families fid = some fam → tid fam.family_head_id = none →
      processSplitCustom families fm ea b s = some b := by
    intro families fm ea b s amount fid fam hr hp hf hfam hh
    simp only [processSplitCustom, hr, hp, hf, hfam, hh]
  have hSp : ∀ (families : Int → Option Family) (fm : Int → Option (Int × Option Int))
      (b : Balances) (s : ExpenseSplit) (fid : Int) (fam : Family),
      tid s.participant_id = none → tid s.family_id = some fid →
      families fid = some fam → tid fam.family_head_id = none →
      processSplitSpecific families fm b s = some b := by
    intro families fm b s fid fam hp hf hfam hh
    simp only [processSplitSpecific, hp, hf, hfam, hh]
  refine ⟨hEq, hCu, hSp, ?_⟩
  rintro e families fm b l1 l2 s fid fam (⟨ht, amount, hr⟩ | ht) hsplits hp hf hfam hh
  · rw [processExpense, if_neg (by rw [ht]; decide), if_pos ht,
        processExpense, if_neg (by rw [ht]; decide), if_pos ht]
    simp only [hsplits, List.foldlM_append]
    cases hacc : List.foldlM (processSplitCustom families fm e.amount)
        (creditPayer fm b ⟨e.payer_id, e.amount, e.split_type, l1 ++ s :: l2⟩) l1
    case none =>
      simp [creditPayer] at hacc ⊢
      simp [hacc]
    case some b' =>
      simp [creditPayer] at hacc ⊢
      simp [hacc, List.foldlM_cons,
            hCu families fm e.amount b' s amount fid fam hr hp hf hfam hh]
  · rw [processExpense, if_neg (by rw [ht]; decide),
        if_neg (by rw [ht]; decide), if_pos ht,
        processExpense, if_neg (by rw [ht]; decide),
        if_neg (by rw [ht]; decide), if_pos ht]
    simp only [hsplits, List.foldlM_append]
    cases hacc : List.foldlM (processSplitSpecific families fm)
        (creditPayer fm b ⟨e.payer_id, e.amount, e.split_type, l1 ++ s :: l2⟩) l1
    case none =>
      simp [creditPayer] at hacc ⊢
      simp [hacc]
    case some b' =>
      simp [creditPayer] at hacc ⊢
      simp [hacc, List.foldlM_cons, hSp families fm b' s fid fam hp hf hfam hh]

/-- Witness for C10 (amended): a headless-family `equal` entry is a no-op on
the balance map, and dropping a headless-family entry from a `specific`
expense leaves the whole expense's effect unchanged. -/
theorem C10_headless_family_split_skipped_witness :
    processSplitEqual (fun fid => if fid = 7 then some ⟨none, [4, 5]⟩ else none)
      (fun _ => none) 50 [] ⟨none, some 7, none, none⟩ = some [] ∧
    processExpense (fun fid => if fid = 7 then some ⟨none, [4, 5]⟩ else none)
      (fun _ => none) []
      ⟨1, 100, "specific", [⟨some 2, none, some 40, none⟩, ⟨none, some 7, some 60, none⟩]⟩
      = processExpense (fun fid => if fid = 7 then some ⟨none, [4, 5]⟩ else none)
          (fun _ => none) [] ⟨1, 100, "specific", [⟨some 2, none, some 40, none⟩]⟩ := by
  have h := C10_headless_family_split_skipped
  constructor
  · exact h.1 _ _ 50 [] ⟨none, some 7, none, none⟩ 7 ⟨none, [4, 5]⟩ rfl (by decide)
      (by norm_num) rfl
  · exact h.2.2.2 ⟨1, 100, "specific",
        [⟨some 2, none, some 40, none⟩, ⟨none, some 7, some 60, none⟩]⟩
      _ _ [] [⟨some 2, none, some 40, none⟩] [] ⟨none, some 7, some 60, none⟩ 7
      ⟨none, [4, 5]⟩ (Or.inr rfl) rfl rfl (by decide) (by norm_num) rfl

theorem mem_emitStep {d c : Int} {debt credit : ℚ} {t : Int × Int × ℚ} :
    t ∈ emitStep d c debt credit ↔
      t = (d, c, round2 (min debt credit)) ∧ 1/100 < round2 (min debt credit) := by
  unfold emitStep
  split
  · rename_i h
    simp only [List.mem_singleton]
    exact ⟨fun he => ⟨he, h⟩, And.left⟩
  · rename_i h
    exact ⟨fun he => absurd he (List.not_mem_nil t), fun hp => absurd hp.2 h⟩

theorem minimizeLoop_emitted_gt_cent (ds cs : List (Int × ℚ)) :
    ∀ t ∈ minimizeLoop ds cs, 1/100 < t.2.2 := by
  induction ds, cs using minimizeLoop.induct with
  | case1 cs => simp [minimizeLoop_nil_left]
  | case2 x xs => simp [minimizeLoop_nil_right]
  | case3 d debt ds c credit cs ih1 ih2 ih3 ih4 =>
      intro t ht
      by_cases h1 : debt - round2 (min debt credit) < 1/100
      · by_cases h2 : credit - round2 (min debt credit) < 1/100
        · rw [minimizeLoop_cons_both d debt ds c credit cs h1 h2] at ht
          rcases List.mem_append.mp ht with h | h
          · obtain ⟨he, hgt⟩ := mem_emitStep.mp h
            rw [he]
            exact hgt
          · exact ih1 t h
        · rw [minimizeLoop_cons_iadv d debt ds c credit cs h1 h2] at ht
          rcases List.mem_append.mp ht with h | h
          · obtain ⟨he, hgt⟩ := mem_emitStep.mp h
            rw [he]
            exact hgt
          · exact ih2 t h
      · rw [minimizeLoop_cons_jadv d debt ds c credit cs h1] at ht
        rcases List.mem_append.mp ht with h | h
        · obtain ⟨he, hgt⟩ := mem_emitStep.mp h
          rw [he]
          exact hgt
        · exact ih3 t h

/-- C7: the minimizer records a transfer only when the rounded matched
amount strictly exceeds 0.01 — every emitted amount is > 0.01 — and the
one-debtor/one-creditor map with magnitudes exactly 0.005 (which rounds to
0.00 under half-even rounding) yields an empty transfer list. -/
theorem C7_noise_floor :
    (∀ (b : Balances) (t : Int × Int × ℚ), t ∈ minimizeTransactions b → 1/100 < t.2.2) ∧
    minimizeTransactions [(1, -(1/200)), (2, 1/200)] = [] := by
  constructor
  · intro b t ht
    simp only [minimizeTransactions] at ht
    exact minimizeLoop_emitted_gt_cent _ _ t ht
  · have e1 : minimizeTransactions [((1 : Int), -(1/200 : ℚ)), (2, 1/200)]
        = minimizeLoop [(1, 1/200)] [(2, 1/200)] := by
      simp [minimizeTransactions, debtorsOf, creditorsOf, sortDesc, insertDesc]
    rw [e1, minimizeLoop_cons_both 1 (1/200) [] 2 (1/200) []
        (by norm_num [round2, roundHalfEven, Int.fract])
        (by norm_num [round2, roundHalfEven, Int.fract]), minimizeLoop_nil_left]
    norm_num [emitStep, round2, roundHalfEven, Int.fract]

/-- Witness for C7: the transfer (1, 2, 5) emitted for balances ∓5 has
amount above the noise floor. -/
theorem C7_noise_floor_witness :
    (1 : ℚ)/100 < 5 ∧ (1, 2, (5 : ℚ)) ∈ minimizeTransactions [(1, -5), (2, 5)] := by
  have hmem : ((1 : Int), (2 : Int), (5 : ℚ)) ∈ minimizeTransactions [(1, -5), (2, 5)] := by
    have e1 : minimizeTransactions [((1 : Int), -(5 : ℚ)), (2, 5)]
        = minimizeLoop [(1, 5)] [(2, 5)] := by
      simp [minimizeTransactions, debtorsOf, creditorsOf, sortDesc, insertDesc]
    have h5 : round2 (min (5 : ℚ) 5) = 5 := by
      norm_num [round2, roundHalfEven, Int.fract]
    rw [e1, minimizeLoop_cons_both 1 5 [] 2 5 []
        (by norm_num [round2, roundHalfEven, Int.fract])
        (by norm_num [round2, roundHalfEven, Int.fract]), minimizeLoop_nil_left]
    rw [List.append_nil, mem_emitStep, h5]
    norm_num
  exact ⟨C7_noise_floor.1 [(1, -5), (2, 5)] (1, 2, 5) hmem, hmem⟩

/-- Iteration counter mirroring the matching loop of
`_minimize_transactions` step for step: one unit per executed iteration,
with the same pointer-advance conditions. -/
def loopIters : List (Int × ℚ) → List (Int × ℚ) → ℕ
  | [], _ => 0
  | _ :: _, [] => 0
  | (d, debt) :: ds, (c, credit) :: cs =>
      1 + (if _h1 : debt - round2 (min debt credit) < 1/100 then
        if _h2 : credit - round2 (min debt credit) < 1/100 then
          loopIters ds cs
        else
          loopIters ds ((c, credit - round2 (min debt credit)) :: cs)
      else
        if _h2 : credit - round2 (min debt credit) < 1/100 then
          loopIters ((d, debt - round2 (min debt credit)) :: ds) cs
        else
          loopIters ((d, debt - round2 (min debt credit)) :: ds)
            ((c, credit - round2 (min debt credit)) :: cs))
  termination_by ds cs => ds.length + cs.length
  decreasing_by
  · simp; omega
  · simp
  · simp
  · exact absurd (half_sub_round2_min_lt debt credit)
      (by push_neg; exact ⟨not_lt.mp _h1, not_lt.mp _h2⟩)

theorem loopIters_le (ds cs : List (Int × ℚ)) :
    loopIters ds cs ≤ ds.length + cs.length := by
  induction ds, cs using loopIters.induct with
  | case1 cs => rw [loopIters.eq_def]; simp
  | case2 x xs => rw [loopIters.eq_def]; simp
  | case3 d debt ds c credit cs ih1 ih2 ih3 ih4 =>
      rw [loopIters.eq_def]
      by_cases h1 : debt - round2 (min debt credit) < 1/100
      · by_cases h2 : credit - round2 (min debt credit) < 1/100
        · simp only [dif_pos h1, dif_pos h2, List.length_cons]
          simp at ih1
          omega
        · simp only [dif_pos h1, dif_neg h2, List.length_cons]
          simp at ih2
          omega
      · have h2 : credit - round2 (min debt credit) < 1/100 :=
          (half_sub_round2_min_lt debt credit).resolve_left h1
        simp only [dif_neg h1, dif_pos h2, List.length_cons]
        simp at ih3
        omega

theorem emitStep_length_le (d c : Int) (debt credit : ℚ) :
    (emitStep d c debt credit).length ≤ 1 := by
  unfold emitStep
  split <;> simp

theorem minimizeLoop_length_le_iters (ds cs : List (Int × ℚ)) :
    (minimizeLoop ds cs).length ≤ loopIters ds cs := by
  induction ds, cs using minimizeLoop.induct with
  | case1 cs => rw [minimizeLoop_nil_left, loopIters.eq_def]; simp
  | case2 x xs =>
      obtain ⟨x1, x2⟩ := x
      rw [minimizeLoop_nil_right, loopIters.eq_def]
      simp
  | case3 d debt ds c credit cs ih1 ih2 ih3 ih4 =>
      have he := emitStep_length_le d c debt credit
      rw [loopIters.eq_def]
      by_cases h1 : debt - round2 (min debt credit) < 1/100
      · by_cases h2 : credit - round2 (min debt credit) < 1/100
        · rw [minimizeLoop_cons_both d debt ds c credit cs h1 h2]
          simp only [dif_pos h1, dif_pos h2, List.length_append]
          omega
        · rw [minimizeLoop_cons_iadv d debt ds c credit cs h1 h2]
          simp only [dif_pos h1, dif_neg h2, List.length_append]
          omega
      · have h2 : credit - round2 (min debt credit) < 1/100 :=
          (half_sub_round2_min_lt debt credit).resolve_left h1
        rw [minimizeLoop_cons_jadv d debt ds c credit cs h1]
        simp only [dif_neg h1, dif_pos h2, List.length_append]
        omega

/-- C9: the matching loop always terminates — the settled amount
`round2 (min debt credit)` leaves the smaller side's remainder strictly
below 0.01, so at least one pointer advances every iteration; the iteration
count is at most the number of debtors plus the number of creditors, and
the loop emits at most one transfer per iteration. -/
theorem C9_loop_terminates :
    (∀ debt credit : ℚ,
        debt - round2 (min debt credit) < 1/100 ∨
        credit - round2 (min debt credit) < 1/100) ∧
    (∀ ds cs : List (Int × ℚ), loopIters ds cs ≤ ds.length + cs.length) ∧
    (∀ ds cs : List (Int × ℚ), (minimizeLoop ds cs).length ≤ loopIters ds cs) :=
  ⟨half_sub_round2_min_lt, loopIters_le, minimizeLoop_length_le_iters⟩

theorem minimizeLoop_length (ds cs : List (Int × ℚ)) :
    (minimizeLoop ds cs).length ≤ ds.length + cs.length - 1 := by
  induction ds, cs using minimizeLoop.induct with
  | case1 cs => rw [minimizeLoop_nil_left]; simp
  | case2 x xs => rw [minimizeLoop_nil_right]; simp
  | case3 d debt ds c credit cs ih1 ih2 ih3 ih4 =>
      have he := emitStep_length_le d c debt credit
      by_cases h1 : debt - round2 (min debt credit) < 1/100
      · by_cases h2 : credit - round2 (min debt credit) < 1/100
        · rw [minimizeLoop_cons_both d debt ds c credit cs h1 h2]
          simp only [List.length_append, List.length_cons]
          omega
        · rw [minimizeLoop_cons_iadv d debt ds c credit cs h1 h2]
          simp only [List.length_append, List.length_cons] at ih2 ⊢
          omega
      · have h2 : credit - round2 (min debt credit) < 1/100 :=
          (half_sub_round2_min_lt debt credit).resolve_left h1
        rw [minimizeLoop_cons_jadv d debt ds c credit cs h1]
        simp only [List.length_append, List.length_cons] at ih3 ⊢
        omega

theorem insertDesc_length (x : Int × ℚ) (l : List (Int × ℚ)) :
    (insertDesc x l).length = l.length + 1 := by
  induction l with
  | nil => rfl
  | cons y ys ih =>
      rw [insertDesc]
      split <;> simp [ih]

theorem sortDesc_length (l : List (Int × ℚ)) : (sortDesc l).length = l.length := by
  suffices h : ∀ acc, (l.foldl (fun acc x => insertDesc x acc) acc).length
      = l.length + acc.length by
    simpa using h []
  induction l with
  | nil => intro acc; simp
  | cons y ys ih =>
      intro acc
      simp only [List.foldl_cons, ih, insertDesc_length, List.length_cons]
      omega

theorem debtors_creditors_length (b : Balances) :
    (debtorsOf b).length + (creditorsOf b).length
      = (b.filter (fun x => decide (x.2 ≠ 0))).length := by
  unfold debtorsOf creditorsOf
  induction b with
  | nil => rfl
  | cons kv rest ih =>
      obtain ⟨k, v⟩ := kv
      rcases lt_trichotomy v 0 with h | h | h
      · rw [List.filterMap_cons, List.filterMap_cons,
            List.filter_cons_of_pos (by simp [ne_of_lt h])]
        simp only [if_pos h, if_neg (not_lt.mpr (le_of_lt h)), List.length_cons]
        omega
      · subst h
        rw [List.filterMap_cons, List.filterMap_cons,
            List.filter_cons_of_neg (by simp)]
        simpa using ih
      · rw [List.filterMap_cons, List.filterMap_cons,
            List.filter_cons_of_pos (by simp [ne_of_gt h])]
        simp only [if_pos h, if_neg (not_lt.mpr (le_of_lt h)), List.length_cons]
        omega

/-- C5: for a balance map in which k entries hold a nonzero balance, the
minimizer emits at most k − 1 transfers (natural-number subtraction; a map
with no nonzero balances yields no transfers). -/
theorem C5_transfer_count_bound (b : Balances) :
    (minimizeTransactions b).length
      ≤ (b.filter (fun x => decide (x.2 ≠ 0))).length - 1 := by
  have h1 := minimizeLoop_length (sortDesc (debtorsOf b)) (sortDesc (creditorsOf b))
  rw [sortDesc_length, sortDesc_length, debtors_creditors_length] at h1
  exact h1


/-- Predicate on a split: its debit actually lands on some balance — it
targets a participant, or a family that exists and has its head set. -/
def splitLands (families : Int → Option Family) (s : ExpenseSplit) : Prop :=
  (∃ pid, tid s.participant_id = some pid) ∨
  (tid s.participant_id = none ∧
    ∃ fid fam h, tid s.family_id = some fid ∧ families fid = some fam ∧
      tid fam.family_head_id = some h)

theorem processSplitCustom_sum (families : Int → Option Family)
    (fm : Int → Option (Int × Option Int)) (ea : ℚ) (b : Balances)
    (s : ExpenseSplit) (a : ℚ) (hr : resolveCustomAmount ea s = some a)
    (hl : splitLands families s) :
    ∃ b', processSplitCustom families fm ea b s = some b' ∧
      sumVals b' = sumVals b - a := by
  rcases hl with ⟨pid, hp⟩ | ⟨hp, fid, fam, h, hf, hfam, hh⟩
  · refine ⟨addBal b (redirect fm pid) (-a), ?_, ?_⟩
    · simp only [processSplitCustom, hr, hp]
    · rw [sumVals_addBal]; ring
  · refine ⟨addBal b h (-a), ?_, ?_⟩
    · simp only [processSplitCustom, hr, hp, hf, hfam, hh]
    · rw [sumVals_addBal]; ring

theorem processSplitSpecific_sum (families : Int → Option Family)
    (fm : Int → Option (Int × Option Int)) (b : Balances)
    (s : ExpenseSplit) (a : ℚ) (hr : s.share_amount = some a)
    (hl : splitLands families s) :
    ∃ b', processSplitSpecific families fm b s = some b' ∧
      sumVals b' = sumVals b - a := by
  rcases hl with ⟨pid, hp⟩ | ⟨hp, fid, fam, h, hf, hfam, hh⟩
  · refine ⟨addBal b (redirect fm pid) (-a), ?_, ?_⟩
    · simp only [processSplitSpecific, hp, hr]
    · rw [sumVals_addBal]; ring
  · refine ⟨addBal b h (-a), ?_, ?_⟩
    · simp only [processSplitSpecific, hp, hf, hfam, hh, hr]
    · rw [sumVals_addBal]; ring

theorem foldlM_sumVals {step : Balances → ExpenseSplit → Option Balances}
    {splits : List ExpenseSplit} {amounts : List ℚ}
    (h : List.Forall₂
      (fun s a => ∀ b : Balances,
        ∃ b', step b s = some b' ∧ sumVals b' = sumVals b - a) splits amounts) :
    ∀ b, ∃ b', splits.foldlM step b = some b' ∧
      sumVals b' = sumVals b - amounts.sum := by
  induction h with
  | nil => intro b; exact ⟨b, rfl, by simp⟩
  | @cons s a rest restAmounts hsa _ ih =>
      intro b
      obtain ⟨b1, hb1, hs1⟩ := hsa b
      obtain ⟨b2, hb2, hs2⟩ := ih b1
      refine ⟨b2, ?_, ?_⟩
      · rw [List.foldlM_cons, hb1]
        simpa using hb2
      · rw [hs2, hs1, List.sum_cons]
        ring

theorem processExpense_conserves (families : Int → Option Family)
    (fm : Int → Option (Int × Option Int)) (b : Balances) (e : Expense)
    (hty : e.split_type = "custom" ∨ e.split_type = "specific")
    (hres : ∃ amounts : List ℚ,
      List.Forall₂ (fun s a =>
        (if e.split_type = "custom" then resolveCustomAmount e.amount s
         else s.share_amount) = some a ∧ splitLands families s)
        e.splits amounts ∧ amounts.sum = e.amount) :
    ∃ b', processExpense families fm b e = some b' ∧ sumVals b' = sumVals b := by
  obtain ⟨amounts, hfa, hsum⟩ := hres
  have hcredit : sumVals (creditPayer fm b e) = sumVals b + e.amount := by
    rw [creditPayer, sumVals_addBal]
  rcases hty with ht | ht
  · have hfa' : List.Forall₂
        (fun s a => ∀ b : Balances,
          ∃ b', processSplitCustom families fm e.amount b s = some b' ∧
            sumVals b' = sumVals b - a) e.splits amounts := by
      refine hfa.imp ?_
      intro s a ⟨hr, hl⟩
      rw [if_pos ht] at hr
      exact fun b0 => processSplitCustom_sum families fm e.amount b0 s a hr hl
    obtain ⟨b', hb', hs'⟩ := foldlM_sumVals hfa' (creditPayer fm b e)
    refine ⟨b', ?_, ?_⟩
    · rw [processExpense, if_neg (by rw [ht]; decide), if_pos ht]
      exact hb'
    · rw [hs', hcredit, hsum]; ring
  · have hfa' : List.Forall₂
        (fun s a => ∀ b : Balances,
          ∃ b', processSplitSpecific families fm b s = some b' ∧
            sumVals b' = sumVals b - a) e.splits amounts := by
      refine hfa.imp ?_
      intro s a ⟨hr, hl⟩
      rw [if_neg (by rw [ht]; decide)] at hr
      exact fun b0 => processSplitSpecific_sum families fm b0 s a hr hl
    obtain ⟨b', hb', hs'⟩ := foldlM_sumVals hfa' (creditPayer fm b e)
    refine ⟨b', ?_, ?_⟩
    · rw [processExpense, if_neg (by rw [ht]; decide),
          if_neg (by rw [ht]; decide), if_pos ht]
      exact hb'
    · rw [hs', hcredit, hsum]; ring

/-- C4 (amended): for a snapshot containing only `custom` and `specific`
expenses in which every expense's resolved split amounts sum exactly to its
amount **and every split's debit lands** (it targets a participant, or a
family that exists and has its head set), the balances sum to exactly 0. -/
theorem C4_conservation (families : Int → Option Family)
    (fm : Int → Option (Int × Option Int)) (expenses : List Expense)
    (h : ∀ e ∈ expenses,
      (e.split_type = "custom" ∨ e.split_type = "specific") ∧
      ∃ amounts : List ℚ,
        List.Forall₂ (fun s a =>
          (if e.split_type = "custom" then resolveCustomAmount e.amount s
           else s.share_amount) = some a ∧ splitLands families s)
          e.splits amounts ∧ amounts.sum = e.amount) :
    ∃ bfinal, calculateBalances families fm expenses = some bfinal ∧
      sumVals bfinal = 0 := by
  suffices hgen : ∀ b : Balances,
      ∃ b', expenses.foldlM (processExpense families fm) b = some b' ∧
        sumVals b' = sumVals b by
    obtain ⟨b', hb', hs'⟩ := hgen []
    exact ⟨b', hb', by rw [hs']; rfl⟩
  induction expenses with
  | nil => intro b; exact ⟨b, rfl, rfl⟩
  | cons e rest ih =>
      intro b
      obtain ⟨hty, hres⟩ := h e (List.mem_cons_self e rest)
      obtain ⟨b1, hb1, hs1⟩ := processExpense_conserves families fm b e hty hres
      obtain ⟨b2, hb2, hs2⟩ := ih (fun e' he' => h e' (List.mem_cons_of_mem e he')) b1
      refine ⟨b2, ?_, by rw [hs2, hs1]⟩
      rw [List.foldlM_cons, hb1]
      simpa using hb2

/-- C4 counterexample: a `custom` expense of 100 with a single split of
exactly 100 targeting an existing but headless family satisfies the claim's
hypotheses (splits sum to the amount, no `equal` expenses), yet the debit is
silently dropped and the balances sum to 100, not 0. -/
theorem C4_counterexample :
    calculateBalances (fun fid => if fid = 7 then some ⟨none, [4, 5]⟩ else none)
      (fun _ => none)
      [⟨1, 100, "custom", [⟨none, some 7, some 100, none⟩]⟩]
      = some [(1, 100)] ∧
    sumVals [((1 : Int), (100 : ℚ))] ≠ 0 := by
  constructor
  · simp [calculateBalances, processExpense, creditPayer, redirect, tid,
          processSplitCustom, resolveCustomAmount, addBal]
  · simp [sumVals]

/-- Witness for C4 (amended): a custom 60/40 split of a 100 expense over
two lone participants conserves: balances (100, −60, −40) sum to 0. -/
theorem C4_conservation_witness :
    calculateBalances (fun _ => none) (fun _ => none)
      [⟨1, 100, "custom", [⟨some 2, none, some 60, none⟩, ⟨some 3, none, some 40, none⟩]⟩]
      = some [(1, 100), (2, -60), (3, -40)] ∧
    sumVals [((1 : Int), (100 : ℚ)), (2, -60), (3, -40)] = 0 := by
  have hc : calculateBalances (fun _ => none) (fun _ => none)
      [⟨1, 100, "custom", [⟨some 2, none, some 60, none⟩, ⟨some 3, none, some 40, none⟩]⟩]
      = some [(1, 100), (2, -60), (3, -40)] := by
    simp [calculateBalances, processExpense, creditPayer, redirect, tid,
          processSplitCustom, resolveCustomAmount, addBal]
  obtain ⟨bf, hb, hs⟩ := C4_conservation (fun _ => none) (fun _ => none)
    [⟨1, 100, "custom", [⟨some 2, none, some 60, none⟩, ⟨some 3, none, some 40, none⟩]⟩]
    (by
      intro e he
      simp only [List.mem_singleton] at he
      subst he
      refine ⟨Or.inl rfl, [60, 40], ?_, by norm_num⟩
      refine List.Forall₂.cons ⟨?_, Or.inl ⟨2, rfl⟩⟩
        (List.Forall₂.cons ⟨?_, Or.inl ⟨3, rfl⟩⟩ List.Forall₂.nil)
      · norm_num [resolveCustomAmount]
      · norm_num [resolveCustomAmount])
  rw [hc] at hb
  have hbf : bf = [(1, 100), (2, -60), (3, -40)] := by
    exact (Option.some_inj.mp hb).symm
  refine ⟨hc, ?_⟩
  rw [← hbf]
  exact hs


/-- Apply emitted transfers to a balance map — the claim's reading:
debtor += amount, creditor −= amount for each settlement. -/
def applyTransfers (b : Balances) (ts : List (Int × Int × ℚ)) : Balances :=
  ts.foldl (fun acc t => addBal (addBal acc t.1 t.2.2) t.2.1 (-t.2.2)) b

/-- Total amount recorded against `p` as debtor. -/
def recordedD (p : Int) (ts : List (Int × Int × ℚ)) : ℚ :=
  (ts.filterMap (fun t => if t.1 = p then some t.2.2 else none)).sum

/-- Total amount recorded in favour of `p` as creditor. -/
def recordedC (p : Int) (ts : List (Int × Int × ℚ)) : ℚ :=
  (ts.filterMap (fun t => if t.2.1 = p then some t.2.2 else none)).sum

/-- Amount one matching step records (0 when below the noise floor). -/
def emitAmt (debt credit : ℚ) : ℚ :=
  if round2 (min debt credit) > 1/100 then round2 (min debt credit) else 0

theorem recordedD_nil (p : Int) : recordedD p [] = 0 := rfl

theorem recordedC_nil (p : Int) : recordedC p [] = 0 := rfl

theorem recordedD_cons (p : Int) (t : Int × Int × ℚ) (ts : List (Int × Int × ℚ)) :
    recordedD p (t :: ts) = (if t.1 = p then t.2.2 else 0) + recordedD p ts := by
  unfold recordedD
  rw [List.filterMap_cons]
  by_cases h : t.1 = p
  · simp [h]
  · simp [h]

theorem recordedC_cons (p : Int) (t : Int × Int × ℚ) (ts : List (Int × Int × ℚ)) :
    recordedC p (t :: ts) = (if t.2.1 = p then t.2.2 else 0) + recordedC p ts := by
  unfold recordedC
  rw [List.filterMap_cons]
  by_cases h : t.2.1 = p
  · simp [h]
  · simp [h]

theorem recordedD_append (p : Int) (ts us : List (Int × Int × ℚ)) :
    recordedD p (ts ++ us) = recordedD p ts + recordedD p us := by
  unfold recordedD
  rw [List.filterMap_append, List.sum_append]

theorem recordedC_append (p : Int) (ts us : List (Int × Int × ℚ)) :
    recordedC p (ts ++ us) = recordedC p ts + recordedC p us := by
  unfold recordedC
  rw [List.filterMap_append, List.sum_append]

theorem recordedD_emitStep (p d c : Int) (debt credit : ℚ) :
    recordedD p (emitStep d c debt credit) = if d = p then emitAmt debt credit else 0 := by
  unfold emitStep emitAmt
  split
  · rw [recordedD_cons, recordedD_nil]
    simp
  · rw [recordedD_nil]
    simp

theorem recordedC_emitStep (p d c : Int) (debt credit : ℚ) :
    recordedC p (emitStep d c debt credit) = if c = p then emitAmt debt credit else 0 := by
  unfold emitStep emitAmt
  split
  · rw [recordedC_cons, recordedC_nil]
    simp
  · rw [recordedC_nil]
    simp

theorem recordedD_eq_zero (p : Int) (ts : List (Int × Int × ℚ))
    (h : ∀ t ∈ ts, t.1 ≠ p) : recordedD p ts = 0 := by
  induction ts with
  | nil => rfl
  | cons t ts ih =>
      rw [recordedD_cons, if_neg (h t (List.mem_cons_self t ts)),
        ih (fun u hu => h u (List.mem_cons_of_mem t hu))]
      ring

theorem recordedC_eq_zero (p : Int) (ts : List (Int × Int × ℚ))
    (h : ∀ t ∈ ts, t.2.1 ≠ p) : recordedC p ts = 0 := by
  induction ts with
  | nil => rfl
  | cons t ts ih =>
      rw [recordedC_cons, if_neg (h t (List.mem_cons_self t ts)),
        ih (fun u hu => h u (List.mem_cons_of_mem t hu))]
      ring

theorem getBal_applyTransfers (b : Balances) (ts : List (Int × Int × ℚ)) (p : Int) :
    getBal (applyTransfers b ts) p = getBal b p + recordedD p ts - recordedC p ts := by
  induction ts generalizing b with
  | nil => rw [recordedD_nil, recordedC_nil]; simp [applyTransfers]
  | cons t ts ih =>
      obtain ⟨d, c, a⟩ := t
      have hstep : applyTransfers b ((d, c, a) :: ts)
          = applyTransfers (addBal (addBal b d a) c (-a)) ts := rfl
      rw [hstep, ih, recordedD_cons, recordedC_cons, getBal_addBal, getBal_addBal]
      by_cases hd : p = d <;> by_cases hc : p = c
      · rw [if_pos hd, if_pos hc, if_pos hd.symm, if_pos hc.symm]
        ring
      · rw [if_pos hd, if_neg hc, if_pos hd.symm, if_neg (fun h : c = p => hc h.symm)]
        ring
      · rw [if_neg hd, if_pos hc, if_neg (fun h : d = p => hd h.symm), if_pos hc.symm]
        ring
      · rw [if_neg hd, if_neg hc, if_neg (fun h : d = p => hd h.symm),
            if_neg (fun h : c = p => hc h.symm)]
        ring

theorem round2_nonneg (x : ℚ) (hx : 0 ≤ x) : 0 ≤ round2 x := by
  unfold round2 roundHalfEven
  have h1 : (0 : Int) ≤ ⌊100 * x⌋ := Int.floor_nonneg.mpr (by linarith)
  have h2 : (0 : Int) ≤ ⌊100 * x⌋ + 1 := by omega
  split
  · positivity
  · split
    · have : ((⌊100 * x⌋ + 1 : Int) : ℚ) ≥ 0 := by exact_mod_cast h2
      push_cast at this ⊢
      linarith
    · split
      · positivity
      · have : ((⌊100 * x⌋ + 1 : Int) : ℚ) ≥ 0 := by exact_mod_cast h2
        push_cast at this ⊢
        linarith

theorem emitAmt_le (debt credit : ℚ) (h : 0 ≤ min debt credit) :
    emitAmt debt credit ≤ round2 (min debt credit) ∧ 0 ≤ emitAmt debt credit ∧
    round2 (min debt credit) - emitAmt debt credit ≤ 1/100 := by
  have hnn := round2_nonneg _ h
  unfold emitAmt
  split
  · exact ⟨le_refl _, hnn, by linarith⟩
  · rename_i hle
    push_neg at hle
    exact ⟨hnn, le_refl _, by linarith⟩


theorem minimizeLoop_debtor_ids (ds cs : List (Int × ℚ)) :
    ∀ t ∈ minimizeLoop ds cs, t.1 ∈ ds.map Prod.fst := by
  induction ds, cs using minimizeLoop.induct with
  | case1 cs => simp [minimizeLoop_nil_left]
  | case2 x xs => simp [minimizeLoop_nil_right]
  | case3 d debt ds c credit cs ih1 ih2 ih3 ih4 =>
      intro t ht
      by_cases h1 : debt - round2 (min debt credit) < 1/100
      · by_cases h2 : credit - round2 (min debt credit) < 1/100
        · rw [minimizeLoop_cons_both d debt ds c credit cs h1 h2] at ht
          rcases List.mem_append.mp ht with h | h
          · obtain ⟨he, _⟩ := mem_emitStep.mp h
            rw [he]
            exact List.mem_cons_self d _
          · exact List.mem_cons_of_mem d (ih1 t h)
        · rw [minimizeLoop_cons_iadv d debt ds c credit cs h1 h2] at ht
          rcases List.mem_append.mp ht with h | h
          · obtain ⟨he, _⟩ := mem_emitStep.mp h
            rw [he]
            exact List.mem_cons_self d _
          · exact List.mem_cons_of_mem d (ih2 t h)
      · rw [minimizeLoop_cons_jadv d debt ds c credit cs h1] at ht
        rcases List.mem_append.mp ht with h | h
        · obtain ⟨he, _⟩ := mem_emitStep.mp h
          rw [he]
          exact List.mem_cons_self d _
        · have := ih3 t h
          simpa using this

theorem minimizeLoop_creditor_ids (ds cs : List (Int × ℚ)) :
    ∀ t ∈ minimizeLoop ds cs, t.2.1 ∈ cs.map Prod.fst := by
  induction ds, cs using minimizeLoop.induct with
  | case1 cs => simp [minimizeLoop_nil_left]
  | case2 x xs => simp [minimizeLoop_nil_right]
  | case3 d debt ds c credit cs ih1 ih2 ih3 ih4 =>
      intro t ht
      by_cases h1 : debt - round2 (min debt credit) < 1/100
      · by_cases h2 : credit - round2 (min debt credit) < 1/100
        · rw [minimizeLoop_cons_both d debt ds c credit cs h1 h2] at ht
          rcases List.mem_append.mp ht with h | h
          · obtain ⟨he, _⟩ := mem_emitStep.mp h
            rw [he]
            exact List.mem_cons_self c _
          · exact List.mem_cons_of_mem c (ih1 t h)
        · rw [minimizeLoop_cons_iadv d debt ds c credit cs h1 h2] at ht
          rcases List.mem_append.mp ht with h | h
          · obtain ⟨he, _⟩ := mem_emitStep.mp h
            rw [he]
            exact List.mem_cons_self c _
          · have := ih2 t h
            simpa using this
      · rw [minimizeLoop_cons_jadv d debt ds c credit cs h1] at ht
        rcases List.mem_append.mp ht with h | h
        · obtain ⟨he, _⟩ := mem_emitStep.mp h
          rw [he]
          exact List.mem_cons_self c _
        · exact List.mem_cons_of_mem c (ih3 t h)

theorem recordedD_minimizeLoop_zero (ds cs : List (Int × ℚ)) (p : Int)
    (hp : p ∉ ds.map Prod.fst) : recordedD p (minimizeLoop ds cs) = 0 :=
  recordedD_eq_zero p _ (fun t ht h => hp (h ▸ minimizeLoop_debtor_ids ds cs t ht))

theorem recordedC_minimizeLoop_zero (ds cs : List (Int × ℚ)) (p : Int)
    (hp : p ∉ cs.map Prod.fst) : recordedC p (minimizeLoop ds cs) = 0 :=
  recordedC_eq_zero p _ (fun t ht h => hp (h ▸ minimizeLoop_creditor_ids ds cs t ht))

theorem insertDesc_perm (x : Int × ℚ) (l : List (Int × ℚ)) :
    (insertDesc x l).Perm (x :: l) := by
  induction l with
  | nil => exact List.Perm.refl _
  | cons y ys ih =>
      rw [insertDesc]
      split
      · exact List.Perm.refl _
      · exact ((ih.cons y).trans (List.Perm.swap x y ys))

theorem sortDesc_perm (l : List (Int × ℚ)) : (sortDesc l).Perm l := by
  suffices h : ∀ acc, (l.foldl (fun acc x => insertDesc x acc) acc).Perm (l ++ acc) by
    simpa using h []
  induction l with
  | nil => intro acc; simp
  | cons y ys ih =>
      intro acc
      rw [List.foldl_cons]
      refine (ih (insertDesc y acc)).trans ?_
      refine (List.Perm.append_left ys (insertDesc_perm y acc)).trans ?_
      exact List.perm_middle


theorem sumVals_perm {l l' : List (Int × ℚ)} (h : l.Perm l') : sumVals l = sumVals l' :=
  (h.map Prod.snd).sum_eq

theorem sortDesc_sumVals (l : List (Int × ℚ)) : sumVals (sortDesc l) = sumVals l :=
  sumVals_perm (sortDesc_perm l)

theorem mem_sortDesc {x : Int × ℚ} {l : List (Int × ℚ)} :
    x ∈ sortDesc l ↔ x ∈ l :=
  (sortDesc_perm l).mem_iff

theorem sortDesc_keys_nodup {l : List (Int × ℚ)} (h : (l.map Prod.fst).Nodup) :
    ((sortDesc l).map Prod.fst).Nodup :=
  (((sortDesc_perm l).map Prod.fst).nodup_iff).mpr h

theorem sortDesc_keys_mem {p : Int} {l : List (Int × ℚ)} :
    p ∈ (sortDesc l).map Prod.fst ↔ p ∈ l.map Prod.fst :=
  ((sortDesc_perm l).map Prod.fst).mem_iff

theorem getBal_eq_of_mem {b : Balances} {p : Int} {v : ℚ}
    (hm : (p, v) ∈ b) (hnd : (b.map Prod.fst).Nodup) : getBal b p = v := by
  induction b with
  | nil => cases hm
  | cons kv rest ih =>
      obtain ⟨k, w⟩ := kv
      rcases List.mem_cons.mp hm with h | h
      · cases h
        simp [getBal]
      · have hk : k ≠ p := by
          intro hkp
          subst hkp
          exact (List.nodup_cons.mp hnd).1 (List.mem_map.mpr ⟨(k, v), h, rfl⟩)
        rw [getBal, if_neg hk]
        exact ih h (List.nodup_cons.mp hnd).2

theorem getBal_mem {b : Balances} {p : Int} (h : getBal b p ≠ 0) :
    (p, getBal b p) ∈ b := by
  induction b with
  | nil => exact absurd rfl h
  | cons kv rest ih =>
      obtain ⟨k, w⟩ := kv
      by_cases hk : k = p
      · subst hk
        rw [getBal, if_pos rfl] at h ⊢
        exact List.mem_cons_self _ _
      · rw [getBal, if_neg hk] at h ⊢
        exact List.mem_cons_of_mem _ (ih h)

theorem sumVals_nonneg {l : List (Int × ℚ)} (hpos : ∀ x ∈ l, (0 : ℚ) < x.2) :
    0 ≤ sumVals l := by
  induction l with
  | nil => exact le_refl 0
  | cons kv rest ih =>
      rw [sumVals_cons]
      have h1 := hpos kv (List.mem_cons_self _ _)
      have h2 := ih (fun x hx => hpos x (List.mem_cons_of_mem _ hx))
      linarith

theorem mem_le_sumVals {l : List (Int × ℚ)} {p : Int} {v : ℚ}
    (hm : (p, v) ∈ l) (hpos : ∀ x ∈ l, (0 : ℚ) < x.2) : v ≤ sumVals l := by
  induction l with
  | nil => cases hm
  | cons kv rest ih =>
      rw [sumVals_cons]
      rcases List.mem_cons.mp hm with h | h
      · cases h
        have h2 := sumVals_nonneg (fun x hx => hpos x (List.mem_cons_of_mem _ hx))
        simp only []
        linarith
      · have h1 := ih h (fun x hx => hpos x (List.mem_cons_of_mem _ hx))
        have h2 := hpos kv (List.mem_cons_self _ _)
        linarith

theorem mem_debtorsOf {b : Balances} {p : Int} {w : ℚ} :
    (p, w) ∈ debtorsOf b ↔ ∃ v, (p, v) ∈ b ∧ v < 0 ∧ w = -v := by
  unfold debtorsOf
  rw [List.mem_filterMap]
  constructor
  · rintro ⟨⟨k, v⟩, hm, hf⟩
    by_cases hv : v < 0
    · rw [if_pos hv, Option.some_inj, Prod.mk.injEq] at hf
      obtain ⟨rfl, hw⟩ := hf
      exact ⟨v, hm, hv, hw.symm⟩
    · rw [if_neg hv] at hf
      cases hf
  · rintro ⟨v, hm, hv, hx⟩
    exact ⟨(p, v), hm, by rw [if_pos hv, hx]⟩

theorem mem_creditorsOf {b : Balances} {p : Int} {w : ℚ} :
    (p, w) ∈ creditorsOf b ↔ (p, w) ∈ b ∧ 0 < w := by
  unfold creditorsOf
  rw [List.mem_filterMap]
  constructor
  · rintro ⟨⟨k, v⟩, hm, hf⟩
    by_cases hv : v > 0
    · rw [if_pos hv, Option.some_inj, Prod.mk.injEq] at hf
      obtain ⟨rfl, hw⟩ := hf
      rw [← hw]
      exact ⟨hm, hv⟩
    · rw [if_neg hv] at hf
      cases hf
  · rintro ⟨hm, hw⟩
    exact ⟨(p, w), hm, by rw [if_pos hw]⟩

theorem debtorsOf_pos {b : Balances} : ∀ x ∈ debtorsOf b, (0 : ℚ) < x.2 := by
  rintro ⟨p, w⟩ hx
  obtain ⟨v, _, hv, hw⟩ := mem_debtorsOf.mp hx
  simp only [hw]
  linarith

theorem creditorsOf_pos {b : Balances} : ∀ x ∈ creditorsOf b, (0 : ℚ) < x.2 := by
  rintro ⟨p, w⟩ hx
  exact (mem_creditorsOf.mp hx).2

theorem filterMap_keys_sublist (f : Int × ℚ → Option (Int × ℚ))
    (hf : ∀ x y, f x = some y → y.1 = x.1) (b : Balances) :
    ((b.filterMap f).map Prod.fst).Sublist (b.map Prod.fst) := by
  induction b with
  | nil => simp
  | cons x rest ih =>
      rw [List.filterMap_cons]
      cases hx : f x with
      | none =>
          simp only [List.map_cons]
          exact ih.cons x.1
      | some y =>
          simp only [List.map_cons]
          rw [hf x y hx]
          exact ih.cons₂ x.1

theorem debtorsOf_keys_nodup {b : Balances} (h : (b.map Prod.fst).Nodup) :
    ((debtorsOf b).map Prod.fst).Nodup := by
  refine List.Nodup.sublist (filterMap_keys_sublist _ ?_ b) h
  rintro ⟨k, v⟩ y hy
  by_cases hv : v < 0
  · rw [if_pos hv, Option.some_inj] at hy
    rw [← hy]
  · rw [if_neg hv] at hy
    cases hy

theorem creditorsOf_keys_nodup {b : Balances} (h : (b.map Prod.fst).Nodup) :
    ((creditorsOf b).map Prod.fst).Nodup := by
  refine List.Nodup.sublist (filterMap_keys_sublist _ ?_ b) h
  rintro ⟨k, v⟩ y hy
  by_cases hv : v > 0
  · rw [if_pos hv, Option.some_inj] at hy
    rw [← hy]
  · rw [if_neg hv] at hy
    cases hy

theorem sumVals_debtors_creditors (b : Balances) :
    sumVals (debtorsOf b) - sumVals (creditorsOf b) = -sumVals b := by
  unfold debtorsOf creditorsOf
  induction b with
  | nil => simp [sumVals]
  | cons kv rest ih =>
      obtain ⟨k, v⟩ := kv
      rw [List.filterMap_cons, List.filterMap_cons, sumVals_cons]
      rcases lt_trichotomy v 0 with h | h | h
      · rw [if_pos h, if_neg (not_lt.mpr (le_of_lt h))]
        rw [sumVals_cons]
        simp only []
        linarith
      · subst h
        rw [if_neg (lt_irrefl (0 : ℚ)), if_neg (lt_irrefl (0 : ℚ))]
        rw [ih]
        ring
      · rw [if_neg (not_lt.mpr (le_of_lt h)), if_pos h]
        rw [sumVals_cons]
        simp only []
        linarith


theorem max_shift {x y k : ℚ} (h : x ≤ y + k) (hk : 0 ≤ k) :
    max x 0 ≤ max y 0 + k := by
  apply max_le
  · exact h.trans (by linarith [le_max_left y 0])
  · linarith [le_max_right y 0]

theorem loop_debtor_upper :
    ∀ ds cs : List (Int × ℚ),
      (∀ x ∈ ds, (0 : ℚ) < x.2) → (∀ x ∈ cs, (0 : ℚ) < x.2) →
      (ds.map Prod.fst).Nodup →
      ∀ p debt, (p, debt) ∈ ds →
        debt - recordedD p (minimizeLoop ds cs)
          ≤ (1/50) * (((ds.length + cs.length : ℕ) : ℚ))
            + max (sumVals ds - sumVals cs) 0 := by
  intro ds cs
  induction ds, cs using minimizeLoop.induct with
  | case1 cs =>
      intro _ _ _ p debt hm
      cases hm
  | case2 x xs =>
      intro hdpos _ _ p debt hm
      rw [minimizeLoop_nil_right, recordedD_nil]
      have h1 : debt ≤ sumVals (x :: xs) := mem_le_sumVals hm hdpos
      have h2 : sumVals (x :: xs) - sumVals ([] : List (Int × ℚ))
          ≤ max (sumVals (x :: xs) - sumVals ([] : List (Int × ℚ))) 0 :=
        le_max_left _ _
      have h3 : sumVals ([] : List (Int × ℚ)) = 0 := rfl
      have h4 : (0 : ℚ) ≤ (((x :: xs).length + ([] : List (Int × ℚ)).length : ℕ) : ℚ) :=
        Nat.cast_nonneg _
      linarith
  | case3 d debt0 ds c credit0 cs ih1 ih2 ih3 ih4 =>
      intro hdpos hcpos hnd p debt hm
      have hd0 : (0 : ℚ) < debt0 := hdpos (d, debt0) (List.mem_cons_self _ _)
      have hc0 : (0 : ℚ) < credit0 := hcpos (c, credit0) (List.mem_cons_self _ _)
      have hmin0 : (0 : ℚ) ≤ min debt0 credit0 := le_min hd0.le hc0.le
      have hb := round2_bounds (min debt0 credit0)
      have ha0 : (0 : ℚ) ≤ round2 (min debt0 credit0) := round2_nonneg _ hmin0
      have hE := emitAmt_le debt0 credit0 hmin0
      have hminl := min_le_left debt0 credit0
      have hminr := min_le_right debt0 credit0
      have hdebt' : -(1/200) ≤ debt0 - round2 (min debt0 credit0) := by linarith
      have hcredit' : -(1/200) ≤ credit0 - round2 (min debt0 credit0) := by linarith
      have hndlist : (d :: ds.map Prod.fst).Nodup := by simpa using hnd
      have hndc := List.nodup_cons.mp hndlist
      have hdpos' : ∀ x ∈ ds, (0 : ℚ) < x.2 :=
        fun x hx => hdpos x (List.mem_cons_of_mem _ hx)
      have hcpos' : ∀ x ∈ cs, (0 : ℚ) < x.2 :=
        fun x hx => hcpos x (List.mem_cons_of_mem _ hx)
      have hsd : sumVals ((d, debt0) :: ds) = debt0 + sumVals ds := sumVals_cons _ _
      have hsc : sumVals ((c, credit0) :: cs) = credit0 + sumVals cs := sumVals_cons _ _
      by_cases h1 : debt0 - round2 (min debt0 credit0) < 1/100
      · by_cases h2 : credit0 - round2 (min debt0 credit0) < 1/100
        · rw [minimizeLoop_cons_both d debt0 ds c credit0 cs h1 h2,
              recordedD_append, recordedD_emitStep]
          rcases List.mem_cons.mp hm with hhead | htail
          · cases hhead
            rw [if_pos rfl,
                recordedD_minimizeLoop_zero ds cs d hndc.1]
            have hmx : (0 : ℚ) ≤ max (sumVals ((d, debt0) :: ds)
                - sumVals ((c, credit0) :: cs)) 0 := le_max_right _ _
            have hcast1 : (0 : ℚ) ≤ (ds.length : ℚ) := Nat.cast_nonneg _
            have hcast2 : (0 : ℚ) ≤ (cs.length : ℚ) := Nat.cast_nonneg _
            push_cast [List.length_cons]
            linarith [hE.2.2]
          · have hd_ne : ¬ d = p := by
              intro h
              exact hndc.1 (h ▸ List.mem_map.mpr ⟨(p, debt), htail, rfl⟩)
            rw [if_neg hd_ne]
            have IH := ih1 hdpos' hcpos' hndc.2 p debt htail
            have hmax : max (sumVals ds - sumVals cs) 0
                ≤ max (sumVals ((d, debt0) :: ds) - sumVals ((c, credit0) :: cs)) 0
                  + 3/200 := by
              apply max_shift _ (by norm_num)
              rw [hsd, hsc]
              linarith
            push_cast [List.length_cons] at IH ⊢
            linarith
        · rw [minimizeLoop_cons_iadv d debt0 ds c credit0 cs h1 h2,
              recordedD_append, recordedD_emitStep]
          push_neg at h2
          rcases List.mem_cons.mp hm with hhead | htail
          · cases hhead
            rw [if_pos rfl,
                recordedD_minimizeLoop_zero ds
                  ((c, credit0 - round2 (min debt0 credit0)) :: cs) d hndc.1]
            have hmx : (0 : ℚ) ≤ max (sumVals ((d, debt0) :: ds)
                - sumVals ((c, credit0) :: cs)) 0 := le_max_right _ _
            have hcast1 : (0 : ℚ) ≤ (ds.length : ℚ) := Nat.cast_nonneg _
            have hcast2 : (0 : ℚ) ≤ (cs.length : ℚ) := Nat.cast_nonneg _
            push_cast [List.length_cons]
            linarith [hE.2.2]
          · have hd_ne : ¬ d = p := by
              intro h
              exact hndc.1 (h ▸ List.mem_map.mpr ⟨(p, debt), htail, rfl⟩)
            rw [if_neg hd_ne]
            have hcpos'' : ∀ x ∈ (c, credit0 - round2 (min debt0 credit0)) :: cs,
                (0 : ℚ) < x.2 := by
              intro x hx
              rcases List.mem_cons.mp hx with hx1 | hx2
              · rw [hx1]
                have : (0:ℚ) < 1/100 := by norm_num
                simp only []
                linarith
              · exact hcpos' x hx2
            have IH := ih2 hdpos' hcpos'' hndc.2 p debt htail
            have hmax : max (sumVals ds
                - sumVals ((c, credit0 - round2 (min debt0 credit0)) :: cs)) 0
                ≤ max (sumVals ((d, debt0) :: ds) - sumVals ((c, credit0) :: cs)) 0
                  + 1/200 := by
              apply max_shift _ (by norm_num)
              rw [hsd, hsc, sumVals_cons]
              simp only []
              linarith
            push_cast [List.length_cons] at IH ⊢
            linarith
      · have h2 : credit0 - round2 (min debt0 credit0) < 1/100 :=
          (half_sub_round2_min_lt debt0 credit0).resolve_left h1
        push_neg at h1
        rw [minimizeLoop_cons_jadv d debt0 ds c credit0 cs (not_lt.mpr h1),
            recordedD_append, recordedD_emitStep]
        have hdpos'' : ∀ x ∈ (d, debt0 - round2 (min debt0 credit0)) :: ds,
            (0 : ℚ) < x.2 := by
          intro x hx
          rcases List.mem_cons.mp hx with hx1 | hx2
          · rw [hx1]
            have : (0:ℚ) < 1/100 := by norm_num
            simp only []
            linarith
          · exact hdpos' x hx2
        have hnd'' : (((d, debt0 - round2 (min debt0 credit0)) :: ds).map Prod.fst).Nodup := by
          simpa using hndlist
        have hmax : max (sumVals ((d, debt0 - round2 (min debt0 credit0)) :: ds)
            - sumVals cs) 0
            ≤ max (sumVals ((d, debt0) :: ds) - sumVals ((c, credit0) :: cs)) 0
              + 1/100 := by
          apply max_shift _ (by norm_num)
          rw [hsd, hsc, sumVals_cons]
          simp only []
          linarith
        rcases List.mem_cons.mp hm with hhead | htail
        · cases hhead
          rw [if_pos rfl]
          have IH := ih3 hdpos'' hcpos' hnd'' d (debt0 - round2 (min debt0 credit0))
            (List.mem_cons_self _ _)
          push_cast [List.length_cons] at IH ⊢
          linarith [hE.2.2]
        · have hd_ne : ¬ d = p := by
            intro h
            exact hndc.1 (h ▸ List.mem_map.mpr ⟨(p, debt), htail, rfl⟩)
          rw [if_neg hd_ne]
          have IH := ih3 hdpos'' hcpos' hnd'' p debt (List.mem_cons_of_mem _ htail)
          push_cast [List.length_cons] at IH ⊢
          linarith [hE.2.1]


theorem loop_debtor_lower :
    ∀ ds cs : List (Int × ℚ),
      (∀ x ∈ ds, (0 : ℚ) < x.2) → (∀ x ∈ cs, (0 : ℚ) < x.2) →
      (ds.map Prod.fst).Nodup →
      ∀ p debt, (p, debt) ∈ ds →
        recordedD p (minimizeLoop ds cs) ≤ debt + 1/200 := by
  intro ds cs
  induction ds, cs using minimizeLoop.induct with
  | case1 cs =>
      intro _ _ _ p debt hm
      cases hm
  | case2 x xs =>
      intro hdpos _ _ p debt hm
      rw [minimizeLoop_nil_right, recordedD_nil]
      have := hdpos (p, debt) hm
      simp only [] at this
      linarith
  | case3 d debt0 ds c credit0 cs ih1 ih2 ih3 ih4 =>
      intro hdpos hcpos hnd p debt hm
      have hd0 : (0 : ℚ) < debt0 := hdpos (d, debt0) (List.mem_cons_self _ _)
      have hc0 : (0 : ℚ) < credit0 := hcpos (c, credit0) (List.mem_cons_self _ _)
      have hmin0 : (0 : ℚ) ≤ min debt0 credit0 := le_min hd0.le hc0.le
      have hb := round2_bounds (min debt0 credit0)
      have hE := emitAmt_le debt0 credit0 hmin0
      have hminl := min_le_left debt0 credit0
      have hndlist : (d :: ds.map Prod.fst).Nodup := by simpa using hnd
      have hndc := List.nodup_cons.mp hndlist
      have hdpos' : ∀ x ∈ ds, (0 : ℚ) < x.2 :=
        fun x hx => hdpos x (List.mem_cons_of_mem _ hx)
      have hcpos' : ∀ x ∈ cs, (0 : ℚ) < x.2 :=
        fun x hx => hcpos x (List.mem_cons_of_mem _ hx)
      by_cases h1 : debt0 - round2 (min debt0 credit0) < 1/100
      · by_cases h2 : credit0 - round2 (min debt0 credit0) < 1/100
        · rw [minimizeLoop_cons_both d debt0 ds c credit0 cs h1 h2,
              recordedD_append, recordedD_emitStep]
          rcases List.mem_cons.mp hm with hhead | htail
          · cases hhead
            rw [if_pos rfl, recordedD_minimizeLoop_zero ds cs d hndc.1]
            linarith [hE.1]
          · have hd_ne : ¬ d = p := by
              intro h
              exact hndc.1 (h ▸ List.mem_map.mpr ⟨(p, debt), htail, rfl⟩)
            rw [if_neg hd_ne]
            have IH := ih1 hdpos' hcpos' hndc.2 p debt htail
            linarith
        · rw [minimizeLoop_cons_iadv d debt0 ds c credit0 cs h1 h2,
              recordedD_append, recordedD_emitStep]
          push_neg at h2
          rcases List.mem_cons.mp hm with hhead | htail
          · cases hhead
            rw [if_pos rfl,
                recordedD_minimizeLoop_zero ds
                  ((c, credit0 - round2 (min debt0 credit0)) :: cs) d hndc.1]
            linarith [hE.1]
          · have hd_ne : ¬ d = p := by
              intro h
              exact hndc.1 (h ▸ List.mem_map.mpr ⟨(p, debt), htail, rfl⟩)
            rw [if_neg hd_ne]
            have hcpos'' : ∀ x ∈ (c, credit0 - round2 (min debt0 credit0)) :: cs,
                (0 : ℚ) < x.2 := by
              intro x hx
              rcases List.mem_cons.mp hx with hx1 | hx2
              · rw [hx1]
                have : (0:ℚ) < 1/100 := by norm_num
                simp only []
                linarith
              · exact hcpos' x hx2
            have IH := ih2 hdpos' hcpos'' hndc.2 p debt htail
            linarith
      · have h2 : credit0 - round2 (min debt0 credit0) < 1/100 :=
          (half_sub_round2_min_lt debt0 credit0).resolve_left h1
        push_neg at h1
        rw [minimizeLoop_cons_jadv d debt0 ds c credit0 cs (not_lt.mpr h1),
            recordedD_append, recordedD_emitStep]
        have hdpos'' : ∀ x ∈ (d, debt0 - round2 (min debt0 credit0)) :: ds,
            (0 : ℚ) < x.2 := by
          intro x hx
          rcases List.mem_cons.mp hx with hx1 | hx2
          · rw [hx1]
            have : (0:ℚ) < 1/100 := by norm_num
            simp only []
            linarith
          · exact hdpos' x hx2
        have hnd'' : (((d, debt0 - round2 (min debt0 credit0)) :: ds).map Prod.fst).Nodup := by
          simpa using hndlist
        rcases List.mem_cons.mp hm with hhead | htail
        · cases hhead
          rw [if_pos rfl]
          have IH := ih3 hdpos'' hcpos' hnd'' d (debt0 - round2 (min debt0 credit0))
            (List.mem_cons_self _ _)
          linarith [hE.1]
        · have hd_ne : ¬ d = p := by
            intro h
            exact hndc.1 (h ▸ List.mem_map.mpr ⟨(p, debt), htail, rfl⟩)
          rw [if_neg hd_ne]
          have IH := ih3 hdpos'' hcpos' hnd'' p debt (List.mem_cons_of_mem _ htail)
          linarith [hE.2.1]


theorem loop_creditor_upper :
    ∀ ds cs : List (Int × ℚ),
      (∀ x ∈ ds, (0 : ℚ) < x.2) → (∀ x ∈ cs, (0 : ℚ) < x.2) →
      (cs.map Prod.fst).Nodup →
      ∀ p credit, (p, credit) ∈ cs →
        credit - recordedC p (minimizeLoop ds cs)
          ≤ (1/50) * (((ds.length + cs.length : ℕ) : ℚ))
            + max (sumVals cs - sumVals ds) 0 := by
  intro ds cs
  induction ds, cs using minimizeLoop.induct with
  | case1 cs =>
      intro _ hcpos _ p credit hm
      rw [minimizeLoop_nil_left, recordedC_nil]
      have h1 : credit ≤ sumVals cs := mem_le_sumVals hm hcpos
      have h2 : sumVals cs - sumVals ([] : List (Int × ℚ))
          ≤ max (sumVals cs - sumVals ([] : List (Int × ℚ))) 0 := le_max_left _ _
      have h3 : sumVals ([] : List (Int × ℚ)) = 0 := rfl
      have h4 : (0 : ℚ) ≤ ((([] : List (Int × ℚ)).length + cs.length : ℕ) : ℚ) :=
        Nat.cast_nonneg _
      linarith
  | case2 x xs =>
      intro _ _ _ p credit hm
      cases hm
  | case3 d debt0 ds c credit0 cs ih1 ih2 ih3 ih4 =>
      intro hdpos hcpos hnd p credit hm
      have hd0 : (0 : ℚ) < debt0 := hdpos (d, debt0) (List.mem_cons_self _ _)
      have hc0 : (0 : ℚ) < credit0 := hcpos (c, credit0) (List.mem_cons_self _ _)
      have hmin0 : (0 : ℚ) ≤ min debt0 credit0 := le_min hd0.le hc0.le
      have hb := round2_bounds (min debt0 credit0)
      have hE := emitAmt_le debt0 credit0 hmin0
      have hminl := min_le_left debt0 credit0
      have hminr := min_le_right debt0 credit0
      have hdebt' : -(1/200) ≤ debt0 - round2 (min debt0 credit0) := by linarith
      have hcredit' : -(1/200) ≤ credit0 - round2 (min debt0 credit0) := by linarith
      have hndlist : (c :: cs.map Prod.fst).Nodup := by simpa using hnd
      have hndc := List.nodup_cons.mp hndlist
      have hdpos' : ∀ x ∈ ds, (0 : ℚ) < x.2 :=
        fun x hx => hdpos x (List.mem_cons_of_mem _ hx)
      have hcpos' : ∀ x ∈ cs, (0 : ℚ) < x.2 :=
        fun x hx => hcpos x (List.mem_cons_of_mem _ hx)
      have hsd : sumVals ((d, debt0) :: ds) = debt0 + sumVals ds := sumVals_cons _ _
      have hsc : sumVals ((c, credit0) :: cs) = credit0 + sumVals cs := sumVals_cons _ _
      by_cases h1 : debt0 - round2 (min debt0 credit0) < 1/100
      · by_cases h2 : credit0 - round2 (min debt0 credit0) < 1/100
        · rw [minimizeLoop_cons_both d debt0 ds c credit0 cs h1 h2,
              recordedC_append, recordedC_emitStep]
          rcases List.mem_cons.mp hm with hhead | htail
          · cases hhead
            rw [if_pos rfl, recordedC_minimizeLoop_zero ds cs c hndc.1]
            have hmx : (0 : ℚ) ≤ max (sumVals ((c, credit0) :: cs)
                - sumVals ((d, debt0) :: ds)) 0 := le_max_right _ _
            have hcast1 : (0 : ℚ) ≤ (ds.length : ℚ) := Nat.cast_nonneg _
            have hcast2 : (0 : ℚ) ≤ (cs.length : ℚ) := Nat.cast_nonneg _
            push_cast [List.length_cons]
            linarith [hE.2.2]
          · have hc_ne : ¬ c = p := by
              intro h
              exact hndc.1 (h ▸ List.mem_map.mpr ⟨(p, credit), htail, rfl⟩)
            rw [if_neg hc_ne]
            have IH := ih1 hdpos' hcpos' hndc.2 p credit htail
            have hmax : max (sumVals cs - sumVals ds) 0
                ≤ max (sumVals ((c, credit0) :: cs) - sumVals ((d, debt0) :: ds)) 0
                  + 3/200 := by
              apply max_shift _ (by norm_num)
              rw [hsd, hsc]
              linarith
            push_cast [List.length_cons] at IH ⊢
            linarith
        · rw [minimizeLoop_cons_iadv d debt0 ds c credit0 cs h1 h2,
              recordedC_append, recordedC_emitStep]
          push_neg at h2
          have hcpos'' : ∀ x ∈ (c, credit0 - round2 (min debt0 credit0)) :: cs,
              (0 : ℚ) < x.2 := by
            intro x hx
            rcases List.mem_cons.mp hx with hx1 | hx2
            · rw [hx1]
              have : (0:ℚ) < 1/100 := by norm_num
              simp only []
              linarith
            · exact hcpos' x hx2
          have hnd'' : (((c, credit0 - round2 (min debt0 credit0)) :: cs).map
              Prod.fst).Nodup := by
            simpa using hndlist
          have hmax : max (sumVals ((c, credit0 - round2 (min debt0 credit0)) :: cs)
              - sumVals ds) 0
              ≤ max (sumVals ((c, credit0) :: cs) - sumVals ((d, debt0) :: ds)) 0
                + 1/100 := by
            apply max_shift _ (by norm_num)
            rw [hsd, hsc, sumVals_cons]
            simp only []
            linarith
          rcases List.mem_cons.mp hm with hhead | htail
          · cases hhead
            rw [if_pos rfl]
            have IH := ih2 hdpos' hcpos'' hnd'' c (credit0 - round2 (min debt0 credit0))
              (List.mem_cons_self _ _)
            push_cast [List.length_cons] at IH ⊢
            linarith [hE.2.2]
          · have hc_ne : ¬ c = p := by
              intro h
              exact hndc.1 (h ▸ List.mem_map.mpr ⟨(p, credit), htail, rfl⟩)
            rw [if_neg hc_ne]
            have IH := ih2 hdpos' hcpos'' hnd'' p credit (List.mem_cons_of_mem _ htail)
            push_cast [List.length_cons] at IH ⊢
            linarith [hE.2.1]
      · have h2 : credit0 - round2 (min debt0 credit0) < 1/100 :=
          (half_sub_round2_min_lt debt0 credit0).resolve_left h1
        push_neg at h1
        rw [minimizeLoop_cons_jadv d debt0 ds c credit0 cs (not_lt.mpr h1),
            recordedC_append, recordedC_emitStep]
        have hdpos'' : ∀ x ∈ (d, debt0 - round2 (min debt0 credit0)) :: ds,
            (0 : ℚ) < x.2 := by
          intro x hx
          rcases List.mem_cons.mp hx with hx1 | hx2
          · rw [hx1]
            have : (0:ℚ) < 1/100 := by norm_num
            simp only []
            linarith
          · exact hdpos' x hx2
        rcases List.mem_cons.mp hm with hhead | htail
        · cases hhead
          rw [if_pos rfl,
              recordedC_minimizeLoop_zero
                ((d, debt0 - round2 (min debt0 credit0)) :: ds) cs c hndc.1]
          have hmx : (0 : ℚ) ≤ max (sumVals ((c, credit0) :: cs)
              - sumVals ((d, debt0) :: ds)) 0 := le_max_right _ _
          have hcast1 : (0 : ℚ) ≤ (ds.length : ℚ) := Nat.cast_nonneg _
          have hcast2 : (0 : ℚ) ≤ (cs.length : ℚ) := Nat.cast_nonneg _
          push_cast [List.length_cons]
          linarith [hE.2.2]
        · have hc_ne : ¬ c = p := by
            intro h
            exact hndc.1 (h ▸ List.mem_map.mpr ⟨(p, credit), htail, rfl⟩)
          rw [if_neg hc_ne]
          have hmax : max (sumVals cs
              - sumVals ((d, debt0 - round2 (min debt0 credit0)) :: ds)) 0
              ≤ max (sumVals ((c, credit0) :: cs) - sumVals ((d, debt0) :: ds)) 0
                + 1/200 := by
            apply max_shift _ (by norm_num)
            rw [hsd, hsc, sumVals_cons]
            simp only []
            linarith
          have IH := ih3 hdpos'' hcpos' hndc.2 p credit htail
          push_cast [List.length_cons] at IH ⊢
          linarith


theorem loop_creditor_lower :
    ∀ ds cs : List (Int × ℚ),
      (∀ x ∈ ds, (0 : ℚ) < x.2) → (∀ x ∈ cs, (0 : ℚ) < x.2) →
      (cs.map Prod.fst).Nodup →
      ∀ p credit, (p, credit) ∈ cs →
        recordedC p (minimizeLoop ds cs) ≤ credit + 1/200 := by
  intro ds cs
  induction ds, cs using minimizeLoop.induct with
  | case1 cs =>
      intro _ hcpos _ p credit hm
      rw [minimizeLoop_nil_left, recordedC_nil]
      have := hcpos (p, credit) hm
      simp only [] at this
      linarith
  | case2 x xs =>
      intro _ _ _ p credit hm
      cases hm
  | case3 d debt0 ds c credit0 cs ih1 ih2 ih3 ih4 =>
      intro hdpos hcpos hnd p credit hm
      have hd0 : (0 : ℚ) < debt0 := hdpos (d, debt0) (List.mem_cons_self _ _)
      have hc0 : (0 : ℚ) < credit0 := hcpos (c, credit0) (List.mem_cons_self _ _)
      have hmin0 : (0 : ℚ) ≤ min debt0 credit0 := le_min hd0.le hc0.le
      have hb := round2_bounds (min debt0 credit0)
      have hE := emitAmt_le debt0 credit0 hmin0
      have hminr := min_le_right debt0 credit0
      have hndlist : (c :: cs.map Prod.fst).Nodup := by simpa using hnd
      have hndc := List.nodup_cons.mp hndlist
      have hdpos' : ∀ x ∈ ds, (0 : ℚ) < x.2 :=
        fun x hx => hdpos x (List.mem_cons_of_mem _ hx)
      have hcpos' : ∀ x ∈ cs, (0 : ℚ) < x.2 :=
        fun x hx => hcpos x (List.mem_cons_of_mem _ hx)
      by_cases h1 : debt0 - round2 (min debt0 credit0) < 1/100
      · by_cases h2 : credit0 - round2 (min debt0 credit0) < 1/100
        · rw [minimizeLoop_cons_both d debt0 ds c credit0 cs h1 h2,
              recordedC_append, recordedC_emitStep]
          rcases List.mem_cons.mp hm with hhead | htail
          · cases hhead
            rw [if_pos rfl, recordedC_minimizeLoop_zero ds cs c hndc.1]
            linarith [hE.1]
          · have hc_ne : ¬ c = p := by
              intro h
              exact hndc.1 (h ▸ List.mem_map.mpr ⟨(p, credit), htail, rfl⟩)
            rw [if_neg hc_ne]
            have IH := ih1 hdpos' hcpos' hndc.2 p credit htail
            linarith
        · rw [minimizeLoop_cons_iadv d debt0 ds c credit0 cs h1 h2,
              recordedC_append, recordedC_emitStep]
          push_neg at h2
          have hcpos'' : ∀ x ∈ (c, credit0 - round2 (min debt0 credit0)) :: cs,
              (0 : ℚ) < x.2 := by
            intro x hx
            rcases List.mem_cons.mp hx with hx1 | hx2
            · rw [hx1]
              have : (0:ℚ) < 1/100 := by norm_num
              simp only []
              linarith
            · exact hcpos' x hx2
          have hnd'' : (((c, credit0 - round2 (min debt0 credit0)) :: cs).map
              Prod.fst).Nodup := by
            simpa using hndlist
          rcases List.mem_cons.mp hm with hhead | htail
          · cases hhead
            rw [if_pos rfl]
            have IH := ih2 hdpos' hcpos'' hnd'' c (credit0 - round2 (min debt0 credit0))
              (List.mem_cons_self _ _)
            linarith [hE.1]
          · have hc_ne : ¬ c = p := by
              intro h
              exact hndc.1 (h ▸ List.mem_map.mpr ⟨(p, credit), htail, rfl⟩)
            rw [if_neg hc_ne]
            have IH := ih2 hdpos' hcpos'' hnd'' p credit (List.mem_cons_of_mem _ htail)
            linarith [hE.2.1]
      · have h2 : credit0 - round2 (min debt0 credit0) < 1/100 :=
          (half_sub_round2_min_lt debt0 credit0).resolve_left h1
        push_neg at h1
        rw [minimizeLoop_cons_jadv d debt0 ds c credit0 cs (not_lt.mpr h1),
            recordedC_append, recordedC_emitStep]
        have hdpos'' : ∀ x ∈ (d, debt0 - round2 (min debt0 credit0)) :: ds,
            (0 : ℚ) < x.2 := by
          intro x hx
          rcases List.mem_cons.mp hx with hx1 | hx2
          · rw [hx1]
            have : (0:ℚ) < 1/100 := by norm_num
            simp only []
            linarith
          · exact hdpos' x hx2
        rcases List.mem_cons.mp hm with hhead | htail
        · cases hhead
          rw [if_pos rfl,
              recordedC_minimizeLoop_zero
                ((d, debt0 - round2 (min debt0 credit0)) :: ds) cs c hndc.1]
          linarith [hE.1]
        · have hc_ne : ¬ c = p := by
            intro h
            exact hndc.1 (h ▸ List.mem_map.mpr ⟨(p, credit), htail, rfl⟩)
          rw [if_neg hc_ne]
          have IH := ih3 hdpos'' hcpos' hndc.2 p credit htail
          linarith


/-- C6 counterexample: the balance map (−0.014, +0.014) sums exactly to
zero, yet the matched amount rounds to 0.01, is not above the strict noise
floor, and is discarded, so no transfer is emitted and participant 1's
balance stays at −0.014 — farther than 0.01 from zero. -/
theorem C6_counterexample :
    sumVals [((1 : Int), -(7/500 : ℚ)), (2, 7/500)] = 0 ∧
    minimizeTransactions [(1, -(7/500)), (2, 7/500)] = [] ∧
    getBal (applyTransfers [(1, -(7/500)), (2, 7/500)]
      (minimizeTransactions [(1, -(7/500)), (2, 7/500)])) 1 = -(7/500) ∧
    ¬ (|(-(7/500) : ℚ)| ≤ 1/100) := by
  have hd : sortDesc (debtorsOf [((1 : Int), -(7/500 : ℚ)), (2, 7/500)])
      = [(1, 7/500)] := by
    unfold debtorsOf
    rw [List.filterMap_cons, List.filterMap_cons, List.filterMap_nil]
    norm_num [sortDesc, insertDesc]
  have hc : sortDesc (creditorsOf [((1 : Int), -(7/500 : ℚ)), (2, 7/500)])
      = [(2, 7/500)] := by
    unfold creditorsOf
    rw [List.filterMap_cons, List.filterMap_cons, List.filterMap_nil]
    norm_num [sortDesc, insertDesc]
  have e1 : minimizeTransactions [((1 : Int), -(7/500 : ℚ)), (2, 7/500)]
      = minimizeLoop [(1, 7/500)] [(2, 7/500)] := by
    rw [minimizeTransactions, hd, hc]
  have hmt : minimizeTransactions [((1 : Int), -(7/500 : ℚ)), (2, 7/500)] = [] := by
    rw [e1, minimizeLoop_cons_both 1 (7/500) [] 2 (7/500) []
        (by norm_num [round2, roundHalfEven, Int.fract])
        (by norm_num [round2, roundHalfEven, Int.fract]), minimizeLoop_nil_left]
    norm_num [emitStep, round2, roundHalfEven, Int.fract]
  refine ⟨by norm_num [sumVals], hmt, ?_, ?_⟩
  · rw [hmt]
    norm_num [applyTransfers, getBal]
  · rw [abs_neg, abs_of_nonneg (by norm_num : (0 : ℚ) ≤ 7/500)]
    norm_num

/-- C6 (amended): for every balance map with distinct participant ids whose
entries sum exactly to zero, applying all emitted transfers (debtor +=
amount, creditor −= amount) leaves every participant's resulting balance
within 0.02 × k of zero, where k is the number of entries holding a nonzero
balance.  A uniform 0.01 tolerance is impossible: discarded sub-cent
matches and sub-cent pointer-advance remainders accumulate across
counterparties (see the counterexample). -/
theorem C6_settlement_residual_bound (b : Balances)
    (hnd : (b.map Prod.fst).Nodup) (hsum : sumVals b = 0) (p : Int) :
    |getBal (applyTransfers b (minimizeTransactions b)) p|
      ≤ (1/50) * (((b.filter (fun x => decide (x.2 ≠ 0))).length : ℚ)) := by
  have hDpos : ∀ x ∈ sortDesc (debtorsOf b), (0 : ℚ) < x.2 :=
    fun x hx => debtorsOf_pos x (mem_sortDesc.mp hx)
  have hCpos : ∀ x ∈ sortDesc (creditorsOf b), (0 : ℚ) < x.2 :=
    fun x hx => creditorsOf_pos x (mem_sortDesc.mp hx)
  have hDnd : ((sortDesc (debtorsOf b)).map Prod.fst).Nodup :=
    sortDesc_keys_nodup (debtorsOf_keys_nodup hnd)
  have hCnd : ((sortDesc (creditorsOf b)).map Prod.fst).Nodup :=
    sortDesc_keys_nodup (creditorsOf_keys_nodup hnd)
  have hdc := sumVals_debtors_creditors b
  have hδ : sumVals (sortDesc (debtorsOf b)) - sumVals (sortDesc (creditorsOf b)) = 0 := by
    rw [sortDesc_sumVals, sortDesc_sumVals]
    rw [hsum] at hdc
    linarith
  have hγ : sumVals (sortDesc (creditorsOf b)) - sumVals (sortDesc (debtorsOf b)) = 0 := by
    linarith
  have hlen : ((sortDesc (debtorsOf b)).length + (sortDesc (creditorsOf b)).length : ℕ)
      = (b.filter (fun x => decide (x.2 ≠ 0))).length := by
    rw [sortDesc_length, sortDesc_length, debtors_creditors_length]
  have hkc : (0 : ℚ) ≤ ((b.filter (fun x => decide (x.2 ≠ 0))).length : ℚ) :=
    Nat.cast_nonneg _
  rw [getBal_applyTransfers]
  simp only [minimizeTransactions]
  rcases lt_trichotomy (getBal b p) 0 with hv | hv | hv
  · have hvne : getBal b p ≠ 0 := ne_of_lt hv
    have hmem_b : (p, getBal b p) ∈ b := getBal_mem hvne
    have hmemD : (p, -(getBal b p)) ∈ sortDesc (debtorsOf b) :=
      mem_sortDesc.mpr (mem_debtorsOf.mpr ⟨getBal b p, hmem_b, hv, rfl⟩)
    have hpC : p ∉ (creditorsOf b).map Prod.fst := by
      intro hpc
      obtain ⟨x, hx, hx1⟩ := List.mem_map.mp hpc
      obtain ⟨k, w⟩ := x
      simp only [] at hx1
      subst hx1
      obtain ⟨hmemb, hwpos⟩ := mem_creditorsOf.mp hx
      have := getBal_eq_of_mem hmemb hnd
      linarith
    have hrecC : recordedC p (minimizeLoop (sortDesc (debtorsOf b))
        (sortDesc (creditorsOf b))) = 0 :=
      recordedC_minimizeLoop_zero _ _ p (fun h => hpC (sortDesc_keys_mem.mp h))
    have hub := loop_debtor_upper _ _ hDpos hCpos hDnd p (-(getBal b p)) hmemD
    have hlb := loop_debtor_lower _ _ hDpos hCpos hDnd p (-(getBal b p)) hmemD
    rw [hδ, max_self, hlen] at hub
    have hk1 : 1 ≤ (b.filter (fun x => decide (x.2 ≠ 0))).length :=
      List.length_pos_of_mem (List.mem_filter.mpr ⟨hmem_b, by simp [hvne]⟩)
    have hk1c : (1 : ℚ) ≤ ((b.filter (fun x => decide (x.2 ≠ 0))).length : ℚ) := by
      exact_mod_cast hk1
    rw [hrecC, abs_le]
    constructor
    · linarith
    · linarith
  · have hrecD : recordedD p (minimizeLoop (sortDesc (debtorsOf b))
        (sortDesc (creditorsOf b))) = 0 := by
      refine recordedD_minimizeLoop_zero _ _ p (fun h => ?_)
      obtain ⟨x, hx, hx1⟩ := List.mem_map.mp (sortDesc_keys_mem.mp h)
      obtain ⟨k, w⟩ := x
      simp only [] at hx1
      subst hx1
      obtain ⟨v', hmemb, hvneg, _⟩ := mem_debtorsOf.mp hx
      have := getBal_eq_of_mem hmemb hnd
      linarith
    have hrecC : recordedC p (minimizeLoop (sortDesc (debtorsOf b))
        (sortDesc (creditorsOf b))) = 0 := by
      refine recordedC_minimizeLoop_zero _ _ p (fun h => ?_)
      obtain ⟨x, hx, hx1⟩ := List.mem_map.mp (sortDesc_keys_mem.mp h)
      obtain ⟨k, w⟩ := x
      simp only [] at hx1
      subst hx1
      obtain ⟨hmemb, hwpos⟩ := mem_creditorsOf.mp hx
      have := getBal_eq_of_mem hmemb hnd
      linarith
    rw [hrecD, hrecC, hv]
    have h0 : (0 : ℚ) + 0 - 0 = 0 := by ring
    rw [h0, abs_zero]
    positivity
  · have hvne : getBal b p ≠ 0 := ne_of_gt hv
    have hmem_b : (p, getBal b p) ∈ b := getBal_mem hvne
    have hmemC : (p, getBal b p) ∈ sortDesc (creditorsOf b) :=
      mem_sortDesc.mpr (mem_creditorsOf.mpr ⟨hmem_b, hv⟩)
    have hpD : p ∉ (debtorsOf b).map Prod.fst := by
      intro hpd
      obtain ⟨x, hx, hx1⟩ := List.mem_map.mp hpd
      obtain ⟨k, w⟩ := x
      simp only [] at hx1
      subst hx1
      obtain ⟨v', hmemb, hvneg, _⟩ := mem_debtorsOf.mp hx
      have := getBal_eq_of_mem hmemb hnd
      linarith
    have hrecD : recordedD p (minimizeLoop (sortDesc (debtorsOf b))
        (sortDesc (creditorsOf b))) = 0 :=
      recordedD_minimizeLoop_zero _ _ p (fun h => hpD (sortDesc_keys_mem.mp h))
    have hub := loop_creditor_upper _ _ hDpos hCpos hCnd p (getBal b p) hmemC
    have hlb := loop_creditor_lower _ _ hDpos hCpos hCnd p (getBal b p) hmemC
    rw [hγ, max_self, hlen] at hub
    have hk1 : 1 ≤ (b.filter (fun x => decide (x.2 ≠ 0))).length :=
      List.length_pos_of_mem (List.mem_filter.mpr ⟨hmem_b, by simp [hvne]⟩)
    have hk1c : (1 : ℚ) ≤ ((b.filter (fun x => decide (x.2 ≠ 0))).length : ℚ) := by
      exact_mod_cast hk1
    rw [hrecD, abs_le]
    constructor
    · linarith
    · linarith

/-- Witness for C6 (amended) on the two-entry map (−5, +5): the single
emitted transfer of 5 drives participant 1's balance to 0, within 0.02 × 2. -/
theorem C6_settlement_residual_bound_witness :
    |getBal (applyTransfers [(1, -5), (2, 5)]
      (minimizeTransactions [(1, -5), (2, 5)])) 1|
      ≤ (1/50) * ((([((1 : Int), (-5 : ℚ)), (2, 5)].filter
          (fun x => decide (x.2 ≠ 0))).length : ℚ)) :=
  C6_settlement_residual_bound [(1, -5), (2, 5)] (by decide)
    (by norm_num [sumVals]) 1

end SplitwiseBot
